import Mathlib

/-!
# Tiled: `AutomappingManager` rule-file resolution and loading

A shallow embedding of `src/tiled/automappingmanager.cpp`.

* `QString` is a list of characters; the handful of `QString` / `QChar`
  operations the manager uses are defined on it.
* Everything the manager only *asks* of its surroundings (the file system, the
  map reader, the `AutoMapper` set-up, Qt's path algebra, the current project
  and the file name of a document) is collected in `Env`.
* `AutomappingManager` holds the member variables, the watched files, and the
  ordered record of calls made on collaborators (`effects`).
* `loadFile` and `loadRulesFile` call each other in the source, and a rules
  file stays open while the files it lists are loaded.  Nothing in the source
  bounds the recursion; it ends on a cycle only because `open` fails once the
  process has no descriptor left.  `Env.maxOpenFiles` is the number of rules
  files the process can hold open at a time, and `held` is the number of rules
  files held open by the enclosing calls.  `loadFile` takes the permitted call
  depth as a first argument and yields `none` when this depth is exhausted; a
  depth of `maxOpenFiles - held + 1` is always enough.  The function `readMap`
  opens and closes its files before it returns; its result is taken as the file
  system has it.
-/

namespace Tiled

/-! ## Strings -/

/-- A `QString`, as the list of its characters. -/
abbrev QString := List Char

/-- Qt::CaseSensitivity. -/
inductive CaseSensitivity where
  | CaseInsensitive
  | CaseSensitive
  deriving DecidableEq, Repr

namespace QChar

/-- QChar::isSpace: U+0020, U+0009..U+000D, U+0085, U+00A0 and the code points
of the Unicode categories Zs, Zl and Zp. -/
def isSpace (c : Char) : Bool :=
  let u := c.toNat
  u == 0x20 || (0x09 ≤ u && u ≤ 0x0d) || u == 0x85 || u == 0xa0 || u == 0x1680
    || (0x2000 ≤ u && u ≤ 0x200a) || u == 0x2028 || u == 0x2029 || u == 0x202f
    || u == 0x205f || u == 0x3000

/-- Case folding as used by the case-insensitive comparisons, restricted to the
letters A..Z.  No code point outside A..Z folds to an ASCII letter or to a full
stop, so comparisons against the literal used by the manager are unaffected by
the restriction. -/
def toCaseFolded (c : Char) : Char := c.toLower

end QChar

namespace QString

/-- QString::isEmpty. -/
def isEmpty (s : QString) : Bool := List.isEmpty s

/-- QString::trimmed: whitespace removed from the start and the end. -/
def trimmed (s : QString) : QString :=
  ((s.dropWhile QChar.isSpace).reverse.dropWhile QChar.isSpace).reverse

/-- Equality of two strings of equal length under the given case sensitivity. -/
def equalUnder : CaseSensitivity → QString → QString → Bool
  | .CaseSensitive, a, b => a == b
  | .CaseInsensitive, a, b => a.map QChar.toCaseFolded == b.map QChar.toCaseFolded

/-- QString::endsWith(QLatin1String, Qt::CaseSensitivity). -/
def endsWith (s suffix : QString) (cs : CaseSensitivity) : Bool :=
  suffix.length ≤ s.length && equalUnder cs (s.drop (s.length - suffix.length)) suffix

/-- QString::startsWith(QLatin1String), case sensitive. -/
def startsWith (s start : QString) : Bool :=
  start.length ≤ s.length && equalUnder .CaseSensitive (s.take start.length) start

/-- QString::startsWith(QLatin1Char), case sensitive. -/
def startsWithChar (s : QString) (c : Char) : Bool :=
  match s with
  | [] => false
  | d :: _ => d == c

end QString

/-! ## Collaborators -/

/-- A directory, as held by a `QDir`. -/
structure QDir where
  dirPath : QString
  deriving DecidableEq, Repr

/-- A region of tiles; its geometry plays no role in the manager. -/
structure QRegion where
  rects : List (Int × Int × Nat × Nat)
  deriving DecidableEq, Repr

/-- A map, as far as the manager looks at it. -/
structure Map where
  width : Nat
  height : Nat
  infinite : Bool
  deriving DecidableEq, Repr

/-- A `TileLayer`, of which the manager uses the name. -/
structure TileLayer where
  name : QString
  deriving DecidableEq, Repr

/-- A `MapDocument *` that is not null, identified by its address. -/
structure MapDocument where
  addr : Nat
  deriving DecidableEq, Repr

/-- What the `AutoMapper` constructor derives from a rule map. -/
structure RuleSetup where
  touchedLayers : List QString
  warning : QString
  error : QString
  deriving DecidableEq, Repr

/-- An `AutoMapper` instance. -/
structure AutoMapper where
  mMapDocument : Option MapDocument
  mRulesMap : Map
  mRulesMapFileName : QString
  mTouchedTileLayers : List QString
  mWarning : QString
  mError : QString
  deriving DecidableEq, Repr

namespace AutoMapper

/-- AutoMapper::warningString. -/
def warningString (a : AutoMapper) : QString := a.mWarning

/-- AutoMapper::errorString. -/
def errorString (a : AutoMapper) : QString := a.mError

/-- AutoMapper::ruleLayerNameUsed. -/
def ruleLayerNameUsed (a : AutoMapper) (ruleLayerName : QString) : Bool :=
  a.mTouchedTileLayers.contains ruleLayerName

end AutoMapper

/-- The `AutoMapperWrapper` undo command, by its constructor arguments. -/
structure AutoMapperWrapper where
  mapDocument : MapDocument
  autoMappers : List AutoMapper
  region : QRegion
  deriving DecidableEq, Repr

/-- A call the manager makes on one of its collaborators. -/
inductive Effect where
  /-- The `ERROR` logging call. -/
  | logError (message : QString)
  /-- The signal `errorsOccurred(automatic)`. -/
  | errorsOccurred (automatic : Bool)
  /-- The signal `warningsOccurred(automatic)`. -/
  | warningsOccurred (automatic : Bool)
  /-- QUndoStack::beginMacro on the undo stack of the document. -/
  | beginMacro (doc : MapDocument) (text : QString)
  /-- QUndoStack::push on the undo stack of the document. -/
  | push (doc : MapDocument) (command : AutoMapperWrapper)
  /-- QUndoStack::endMacro on the undo stack of the document. -/
  | endMacro (doc : MapDocument)
  deriving DecidableEq, Repr

/-- The surroundings the manager queries. -/
structure Env where
  /-- QFile::exists and QFileInfo::exists. -/
  fileExists : QString → Bool
  /-- Opening a file as read-only text while a descriptor is left: `none` when
  `open` fails, otherwise the lines that successive `QTextStream::readLine`
  calls return. -/
  openText : QString → Option (List QString)
  /-- The number of rules files the process can hold open at a time. -/
  maxOpenFiles : Nat
  /-- The function `readMap`: the map, or the error string when it yields null. -/
  readMap : QString → Except QString Map
  /-- The set-up of rules done by the `AutoMapper` constructor. -/
  setupRules : Option MapDocument → Map → QString → RuleSetup
  /-- The automappers as they are after an `AutoMapperWrapper` was pushed. -/
  applied : MapDocument → List AutoMapper → QRegion → List AutoMapper
  /-- The directory `QFileInfo(filePath).dir()`. -/
  dir : QString → QDir
  /-- QDir::filePath. -/
  filePath : QDir → QString → QString
  /-- The path `QFileInfo(fileName).path()`. -/
  path : QString → QString
  /-- MapDocument::fileName. -/
  fileName : MapDocument → QString
  /-- The member `mAutomappingRulesFile` of the current project. -/
  mAutomappingRulesFile : QString

/-- The call `rulesFile.open(QIODevice::ReadOnly | QIODevice::Text)` while
`held` rules files are held open by the enclosing calls: it fails when no
descriptor is left, and otherwise as the file system has it. -/
def Env.openFile (env : Env) (held : Nat) (filePath : QString) : Option (List QString) :=
  if held < env.maxOpenFiles then env.openText filePath else none

/-- The `AutoMapper` constructor. -/
def AutoMapper.new (env : Env) (mapDocument : Option MapDocument) (rules : Map)
    (rulesMapFileName : QString) : AutoMapper :=
  let s := env.setupRules mapDocument rules rulesMapFileName
  { mMapDocument := mapDocument
    mRulesMap := rules
    mRulesMapFileName := rulesMapFileName
    mTouchedTileLayers := s.touchedLayers
    mWarning := s.warning
    mError := s.error }

/-- A `QFileSystemWatcher`, by the files it watches. -/
structure QFileSystemWatcher where
  files : List QString
  deriving DecidableEq, Repr

namespace QFileSystemWatcher

/-- QFileSystemWatcher::addPath for a file that was just opened: the path is
added unless it is watched already. -/
def addPath (w : QFileSystemWatcher) (p : QString) : QFileSystemWatcher :=
  if w.files.contains p then w else { files := w.files ++ [p] }

/-- QFileSystemWatcher::removePaths. -/
def removePaths (w : QFileSystemWatcher) (ps : List QString) : QFileSystemWatcher :=
  { files := w.files.filter (fun f => !ps.contains f) }

end QFileSystemWatcher

/-! ## The manager -/

/-- The member variables of `AutomappingManager`, with the record of the calls
it made on collaborators. -/
structure AutomappingManager where
  mMapDocument : Option MapDocument
  mAutoMappers : List AutoMapper
  mLoaded : Bool
  mRulesFile : QString
  mRulesFileOverride : Bool
  mError : QString
  mWarning : QString
  mWatcher : QFileSystemWatcher
  effects : List Effect
  deriving DecidableEq, Repr

/-- A manager as left by the constructor. -/
def AutomappingManager.init : AutomappingManager :=
  { mMapDocument := none
    mAutoMappers := []
    mLoaded := false
    mRulesFile := []
    mRulesFileOverride := false
    mError := []
    mWarning := []
    mWatcher := { files := [] }
    effects := [] }

/-- The text `tr("No rules file found at '%1'").arg(filePath)`. -/
def msgNoRulesFile (filePath : QString) : QString :=
  "No rules file found at \x27".toList ++ filePath ++ "\x27".toList

/-- The text `tr("Error opening rules file '%1'").arg(filePath)`. -/
def msgErrorOpening (filePath : QString) : QString :=
  "Error opening rules file \x27".toList ++ filePath ++ "\x27".toList

/-- The text `tr("File not found: '%1' (referenced by '%2')").arg(rulePath, filePath)`. -/
def msgFileNotFound (rulePath filePath : QString) : QString :=
  "File not found: \x27".toList ++ rulePath ++ "\x27 (referenced by \x27".toList
    ++ filePath ++ "\x27)".toList

/-- The text `tr("Opening rules map '%1' failed: %2").arg(filePath, errorString)`. -/
def msgOpeningFailed (filePath errorString : QString) : QString :=
  "Opening rules map \x27".toList ++ filePath ++ "\x27 failed: ".toList ++ errorString

/-- The text shown when no rules file is known. -/
def msgNoRules : QString :=
  "No AutoMapping rules provided. Save the map or refer to a rule file in the project properties.".toList

/-- The text of the undo macro. -/
def msgApply : QString := "Apply AutoMap rules".toList

/-- The statements `ERROR(error); mError += error; mError += '\n';`. -/
def reportError (m : AutomappingManager) (error : QString) : AutomappingManager :=
  { m with
    effects := m.effects ++ [Effect.logError error]
    mError := m.mError ++ error ++ ['\n'] }

/-- AutomappingManager::loadRuleMap. -/
def loadRuleMap (env : Env) (filePath : QString) (m : AutomappingManager) :
    Bool × AutomappingManager :=
  match env.readMap filePath with
  | .error errorString =>
    (false, reportError m (msgOpeningFailed filePath errorString))
  | .ok rules =>
    let autoMapper := AutoMapper.new env m.mMapDocument rules filePath
    let m := { m with mWarning := m.mWarning ++ autoMapper.warningString }
    let error := autoMapper.errorString
    if error.isEmpty then
      (true, { m with
        mAutoMappers := m.mAutoMappers ++ [autoMapper]
        mWatcher := m.mWatcher.addPath filePath })
    else
      (true, { m with mError := m.mError ++ error })

/-- Whether a trimmed line of a rules file is skipped: it is empty or starts
with `#` or with `//`. -/
def skipLine (rulePath : QString) : Bool :=
  QString.isEmpty rulePath
    || QString.startsWithChar rulePath '#'
    || QString.startsWith rulePath "//".toList

/-- The `for` loop of `AutomappingManager::loadRulesFile` over the lines that
are still unread; `loadFile` is the callee of the recursive call. -/
def loadRulesLines (loadFile : QString → AutomappingManager → Option (Bool × AutomappingManager))
    (env : Env) (absPath : QDir) (filePath : QString) :
    List QString → Bool → AutomappingManager → Option (Bool × AutomappingManager)
  | [], ret, m => some (ret, m)
  | line :: rest, ret, m =>
    let rulePath := QString.trimmed line
    if skipLine rulePath then
      loadRulesLines loadFile env absPath filePath rest ret m
    else
      let rulePath := env.filePath absPath rulePath
      if !env.fileExists rulePath then
        loadRulesLines loadFile env absPath filePath rest false
          (reportError m (msgFileNotFound rulePath filePath))
      else
        match loadFile rulePath m with
        | none => none
        | some (ok, m) =>
          loadRulesLines loadFile env absPath filePath rest (if !ok then false else ret) m

/-- AutomappingManager::loadRulesFile, called while `held` rules files are held
open; `loadFile` is the callee of the recursive call.  The file `rulesFile`
stays open until the function returns, so the callee runs with one more file
held. -/
def loadRulesFile (loadFile : QString → AutomappingManager → Option (Bool × AutomappingManager))
    (env : Env) (held : Nat) (filePath : QString) (m : AutomappingManager) :
    Option (Bool × AutomappingManager) :=
  let absPath := env.dir filePath
  if !env.fileExists filePath then
    some (false, reportError m (msgNoRulesFile filePath))
  else
    match env.openFile held filePath with
    | none => some (false, reportError m (msgErrorOpening filePath))
    | some lines =>
      let m := { m with mWatcher := m.mWatcher.addPath filePath }
      loadRulesLines loadFile env absPath filePath lines true m

/-- AutomappingManager::loadFile, with the permitted depth of calls and the
number of rules files held open by the enclosing calls. -/
def loadFile (env : Env) : Nat → Nat → QString → AutomappingManager →
    Option (Bool × AutomappingManager)
  | 0, _, _, _ => none
  | depth + 1, held, filePath, m =>
    if QString.endsWith filePath ".txt".toList .CaseInsensitive then
      loadRulesFile (loadFile env depth (held + 1)) env held filePath m
    else
      some (loadRuleMap env filePath m)

/-- AutomappingManager::cleanUp. -/
def cleanUp (m : AutomappingManager) : AutomappingManager :=
  { m with
    mAutoMappers := []
    mLoaded := false
    mWatcher :=
      if !m.mWatcher.files.isEmpty then m.mWatcher.removePaths m.mWatcher.files
      else m.mWatcher }

/-- AutomappingManager::onFileChanged. -/
def onFileChanged (m : AutomappingManager) : AutomappingManager :=
  cleanUp m

/-- AutomappingManager::refreshRulesFile. -/
def refreshRulesFile (env : Env) (ruleFileOverride : QString) (m : AutomappingManager) :
    AutomappingManager :=
  let m := { m with mRulesFileOverride := !QString.isEmpty ruleFileOverride }
  let rulesFile : QString :=
    match m.mMapDocument with
    | some doc =>
      if QString.isEmpty ruleFileOverride && !QString.isEmpty (env.fileName doc) then
        let mapPath := env.path (env.fileName doc)
        let rulesFile := mapPath ++ "/rules.txt".toList
        if !env.fileExists rulesFile then
          if !QString.isEmpty env.mAutomappingRulesFile then env.mAutomappingRulesFile
          else rulesFile
        else rulesFile
      else ruleFileOverride
    | none => ruleFileOverride
  if m.mRulesFile != rulesFile then
    cleanUp { m with mRulesFile := rulesFile }
  else m

/-- AutomappingManager::setMapDocument.  The connections made to the signals of
the document are not part of the state: the slots they lead to are the
functions `onMapFileNameChanged` and `autoMapInternal`. -/
def setMapDocument (env : Env) (mapDocument : Option MapDocument) (rulesFile : QString)
    (m : AutomappingManager) : AutomappingManager :=
  let m :=
    if m.mMapDocument != mapDocument then
      cleanUp { m with mMapDocument := mapDocument }
    else m
  refreshRulesFile env rulesFile m

/-- AutomappingManager::onMapFileNameChanged. -/
def onMapFileNameChanged (env : Env) (m : AutomappingManager) : AutomappingManager :=
  if !m.mRulesFileOverride then refreshRulesFile env [] m else m

/-- The automappers selected by `autoMapInternal` for the touched layer. -/
def passedAutoMappers (touchedLayer : Option TileLayer) (autoMappers : List AutoMapper) :
    List AutoMapper :=
  autoMappers.filter fun a =>
    match touchedLayer with
    | none => true
    | some layer => a.ruleLayerNameUsed layer.name

/-- The part of `AutomappingManager::autoMapInternal` after the rules are
loaded: selection, undo macro, collection of warnings and errors, signals.  The
warning and error strings collected are those the selected automappers have
after the `AutoMapperWrapper` was pushed (`env.applied`); the manager reads
these strings only here and in `loadRuleMap`, right after the construction. -/
def applyLoaded (env : Env) (doc : MapDocument) (region : QRegion)
    (touchedLayer : Option TileLayer) (m : AutomappingManager) : AutomappingManager :=
  let automatic := touchedLayer.isSome
  let passed := passedAutoMappers touchedLayer m.mAutoMappers
  let m :=
    if !passed.isEmpty then
      { m with effects := m.effects ++
          [Effect.beginMacro doc msgApply,
           Effect.push doc { mapDocument := doc, autoMappers := passed, region := region },
           Effect.endMacro doc] }
    else m
  let after := if !passed.isEmpty then env.applied doc passed region else passed
  let m := after.foldl
    (fun m autoMapper =>
      { m with
        mWarning := m.mWarning ++ autoMapper.warningString
        mError := m.mError ++ autoMapper.errorString })
    m
  let m :=
    if !QString.isEmpty m.mWarning then
      { m with effects := m.effects ++ [Effect.warningsOccurred automatic] }
    else m
  if !QString.isEmpty m.mError then
    { m with effects := m.effects ++ [Effect.errorsOccurred automatic] }
  else m

/-- AutomappingManager::autoMapInternal, with the permitted depth of calls of
`loadFile`; the manager holds no rules file open when it starts the load. -/
def autoMapInternal (env : Env) (depth : Nat) (region : QRegion)
    (touchedLayer : Option TileLayer) (m : AutomappingManager) : Option AutomappingManager :=
  let m := { m with mError := [], mWarning := [] }
  match m.mMapDocument with
  | none => some m
  | some doc =>
    let automatic := touchedLayer.isSome
    if !m.mLoaded then
      if QString.isEmpty m.mRulesFile then
        some { m with
          mError := msgNoRules
          effects := m.effects ++ [Effect.errorsOccurred automatic] }
      else
        match loadFile env depth 0 m.mRulesFile m with
        | none => none
        | some (true, m) => some (applyLoaded env doc region touchedLayer { m with mLoaded := true })
        | some (false, m) =>
          some { m with effects := m.effects ++ [Effect.errorsOccurred automatic] }
    else
      some (applyLoaded env doc region touchedLayer m)

/-! ## The behaviour the specification describes -/

/-- A line of a rules file that lists nothing: its trimmed text is empty, starts
with `#`, or starts with `//`. -/
def isComment (trimmedLine : QString) : Prop :=
  trimmedLine = [] ∨ trimmedLine.head? = some '#' ∨ "//".toList <+: trimmedLine

instance isComment.decidable : DecidablePred isComment := fun t => by
  unfold isComment
  infer_instance

/-- The files a rules file lists, in file order: every line is trimmed, comment
lines are dropped, and what is left is resolved against the directory of the
rules file. -/
def listedPaths (env : Env) (filePath : QString) (lines : List QString) : List QString :=
  ((lines.map QString.trimmed).filter fun t => ¬ isComment t).map
    (env.filePath (env.dir filePath))

/-- Every path of the list is handed to `loadFile` once, in order, whether or
not it exists; the result is true when every call returned true. -/
def loadEach (loadFile : QString → AutomappingManager → Option (Bool × AutomappingManager)) :
    List QString → Bool → AutomappingManager → Option (Bool × AutomappingManager)
  | [], ret, m => some (ret, m)
  | p :: ps, ret, m =>
    match loadFile p m with
    | none => none
    | some (ok, m) => loadEach loadFile ps (ret && ok) m

/-- Every path of the list that exists is handed to `loadFile` once, in order;
a path that does not exist is reported as not found and not loaded. -/
def loadListed (loadFile : QString → AutomappingManager → Option (Bool × AutomappingManager))
    (env : Env) (filePath : QString) :
    List QString → Bool → AutomappingManager → Option (Bool × AutomappingManager)
  | [], ret, m => some (ret, m)
  | p :: ps, ret, m =>
    if env.fileExists p then
      match loadFile p m with
      | none => none
      | some (ok, m) => loadListed loadFile env filePath ps (ret && ok) m
    else
      loadListed loadFile env filePath ps false (reportError m (msgFileNotFound p filePath))

/-- The files a load reads, in the order in which it reads them: every rules
file it opens, and every rule map that `readMap` reads and `keep` retains. -/
def filesRead (env : Env) (keep : QString → Map → Bool) : Nat → Nat → QString → List QString
  | 0, _, _ => []
  | depth + 1, held, filePath =>
    if QString.endsWith filePath ".txt".toList .CaseInsensitive then
      if env.fileExists filePath then
        match env.openFile held filePath with
        | none => []
        | some lines =>
          filePath ::
            ((listedPaths env filePath lines).filter env.fileExists).flatMap
              (filesRead env keep depth (held + 1))
      else []
    else
      match env.readMap filePath with
      | .ok rules => if keep filePath rules then [filePath] else []
      | .error _ => []

/-- How a load started with result `ret₀` in manager `m` relates to its result
`ret` and the manager `m1` it leaves: the record of calls grows by calls of
`ERROR` and `mError` grows by some text, the result is false exactly when it
was false before or an error was reported, every reported error adds text to
`mError`, text is added to `mError` without a reported error only by an
`AutoMapper` whose set-up has an error, and what was watched stays watched. -/
def Grows (env : Env) (ret₀ : Bool) (m : AutomappingManager) (ret : Bool)
    (m1 : AutomappingManager) : Prop :=
  ∃ (es : List Effect) (s : QString),
    m1.effects = m.effects ++ es ∧
    m1.mError = m.mError ++ s ∧
    (∀ e ∈ es, ∃ message, e = Effect.logError message) ∧
    (ret = false ↔ ret₀ = false ∨ es ≠ []) ∧
    (es ≠ [] → s ≠ []) ∧
    ((∀ doc rules f, (env.setupRules doc rules f).error = []) → s ≠ [] → es ≠ []) ∧
    m.mWatcher.files ⊆ m1.mWatcher.files ∧
    m1.mMapDocument = m.mMapDocument

/-- What a load appends to `mError`: a message it reports with `ERROR`, or the
error string of an `AutoMapper` whose set-up failed. -/
inductive ErrorItem where
  | reported (message : QString)
  | setUp (error : QString)
  deriving DecidableEq, Repr

/-- The text an item appends to `mError`: a reported message is followed by a
line break, an error string of an `AutoMapper` is appended as it is. -/
def ErrorItem.text : ErrorItem → QString
  | .reported message => message ++ ['\n']
  | .setUp error => error

/-- The call of `ERROR` an item makes: one for a reported message, none for an
error string of an `AutoMapper`. -/
def ErrorItem.logged : ErrorItem → List Effect
  | .reported message => [Effect.logError message]
  | .setUp _ => []

/-- Whether an item is a reported message. -/
def ErrorItem.isReported : ErrorItem → Bool
  | .reported _ => true
  | .setUp _ => false

/-- The errors of a load for a manager whose document is `doc`, in the order in
which they occur: a rules file that is not found or cannot be opened, a listed
file that is not found, a rule map that cannot be read (all reported), and the
error string of an `AutoMapper` when it is not empty (not reported). -/
def loadErrors (env : Env) (doc : Option MapDocument) :
    Nat → Nat → QString → List ErrorItem
  | 0, _, _ => []
  | depth + 1, held, filePath =>
    if QString.endsWith filePath ".txt".toList .CaseInsensitive then
      if env.fileExists filePath then
        match env.openFile held filePath with
        | none => [ErrorItem.reported (msgErrorOpening filePath)]
        | some lines =>
          (listedPaths env filePath lines).flatMap fun q =>
            if env.fileExists q then loadErrors env doc depth (held + 1) q
            else [ErrorItem.reported (msgFileNotFound q filePath)]
      else [ErrorItem.reported (msgNoRulesFile filePath)]
    else
      match env.readMap filePath with
      | .error errorString => [ErrorItem.reported (msgOpeningFailed filePath errorString)]
      | .ok rules =>
        if QString.isEmpty (AutoMapper.new env doc rules filePath).errorString then []
        else [ErrorItem.setUp (AutoMapper.new env doc rules filePath).errorString]

/-- How a load started with result `ret₀` in manager `m` accounts for the error
items `items`: `mError` has grown by the texts of the items, the record of
calls by their calls of `ERROR`, the result is false exactly when it was false
before or one of the items is a reported message, and the document is the
same. -/
def Accounts (items : List ErrorItem) (ret₀ : Bool) (m : AutomappingManager) (ret : Bool)
    (m1 : AutomappingManager) : Prop :=
  m1.mError = m.mError ++ items.flatMap ErrorItem.text ∧
  m1.effects = m.effects ++ items.flatMap ErrorItem.logged ∧
  (ret = false ↔ ret₀ = false ∨ ∃ item ∈ items, item.isReported = true) ∧
  m1.mMapDocument = m.mMapDocument

/-- The calls that make up one undo macro on the undo stack of the document:
`beginMacro`, the push of one `AutoMapperWrapper` for the automappers given,
`endMacro`. -/
def macroCalls (doc : MapDocument) (region : QRegion) (autoMappers : List AutoMapper) :
    List Effect :=
  [Effect.beginMacro doc msgApply,
   Effect.push doc { mapDocument := doc, autoMappers := autoMappers, region := region },
   Effect.endMacro doc]

/-! ## A small file system used for concrete evaluations -/

/-- Everything up to and including the last `/` of a path. -/
def sampleDir (p : QString) : QDir :=
  { dirPath := (p.reverse.dropWhile fun c => c != '/').reverse }

/-- A name that starts with `/` is kept, any other is put after the directory. -/
def sampleFilePath (d : QDir) (f : QString) : QString :=
  if QString.startsWithChar f '/' then f else d.dirPath ++ f

/-- A directory `/m` holding `rules.txt`, which lists the rule map `a.tmx`, a
file that does not exist, and the rules file `sub/more.TXT`; the latter lists
`b.tmx`, a rule map that can be read but for which the set-up of rules reports
an error. -/
def sampleEnv : Env :=
  { fileExists := fun p =>
      ["/m/rules.txt".toList, "/m/a.tmx".toList, "/m/sub/more.TXT".toList,
        "/m/sub/b.tmx".toList].contains p
    openText := fun p =>
      if p = "/m/rules.txt".toList then
        some ["# comment".toList, "  a.tmx ".toList, [], " // x".toList,
          "missing.tmx".toList, "sub/more.TXT".toList]
      else if p = "/m/sub/more.TXT".toList then some ["b.tmx".toList]
      else none
    readMap := fun p =>
      if p = "/m/a.tmx".toList then .ok { width := 1, height := 1, infinite := false }
      else if p = "/m/sub/b.tmx".toList then .ok { width := 2, height := 2, infinite := false }
      else .error "unreadable".toList
    setupRules := fun _ rules _ =>
      if rules.width = 2 then
        { touchedLayers := [], warning := [], error := "No input layer found!".toList }
      else { touchedLayers := ["ground".toList], warning := [], error := [] }
    applied := fun _ autoMappers _ => autoMappers
    maxOpenFiles := 16
    dir := sampleDir
    filePath := sampleFilePath
    path := fun p => (sampleDir p).dirPath.dropLast
    fileName := fun _ => "/m/map.tmx".toList
    mAutomappingRulesFile := "/project/rules.txt".toList }

/-- The lines of `/m/rules.txt` in `sampleEnv`. -/
def sampleLines : List QString :=
  ["# comment".toList, "  a.tmx ".toList, [], " // x".toList,
    "missing.tmx".toList, "sub/more.TXT".toList]

/-- The sample file system for a document that has no file name. -/
def unsavedEnv : Env := { sampleEnv with fileName := fun _ => [] }

/-- The sample file system for a document saved as `/n/map.tmx`. -/
def lonelyEnv : Env := { sampleEnv with fileName := fun _ => "/n/map.tmx".toList }

/-- A new manager whose document is the one at address 1. -/
def sampleManager : AutomappingManager :=
  { AutomappingManager.init with mMapDocument := some { addr := 1 } }

/-- The manager `sampleManager` after it has loaded `/m/rules.txt`. -/
def sampleLoaded : AutomappingManager :=
  ((loadFile sampleEnv 3 0 "/m/rules.txt".toList
    { sampleManager with mRulesFile := "/m/rules.txt".toList }).getD
      (true, AutomappingManager.init)).2

/-- A directory `/f` whose `rules.txt` lists `bad.tmx`, a file that exists and
cannot be read as a map, then `gone.tmx`, which does not exist, then
`good.tmx`, a rule map that loads. -/
def faultyEnv : Env :=
  { sampleEnv with
    fileExists := fun p =>
      ["/f/rules.txt".toList, "/f/bad.tmx".toList, "/f/good.tmx".toList].contains p
    openText := fun p =>
      if p = "/f/rules.txt".toList then
        some ["bad.tmx".toList, "gone.tmx".toList, "good.tmx".toList]
      else none
    readMap := fun p =>
      if p = "/f/good.tmx".toList then .ok { width := 1, height := 1, infinite := false }
      else .error "unreadable".toList }

/-- The lines of `/f/rules.txt` in `faultyEnv`. -/
def faultyLines : List QString :=
  ["bad.tmx".toList, "gone.tmx".toList, "good.tmx".toList]

/-- A new manager after it has loaded `/f/rules.txt` in `faultyEnv`. -/
def faultyWalked : AutomappingManager :=
  ((loadFile faultyEnv 2 0 "/f/rules.txt".toList AutomappingManager.init).getD
    (true, AutomappingManager.init)).2

/-- The manager `sampleManager` with the rule map `/m/a.tmx` as its rules
file. -/
def sampleUnloaded : AutomappingManager :=
  { sampleManager with mRulesFile := "/m/a.tmx".toList }

/-- The manager `sampleUnloaded` after `autoMapInternal` without a touched
layer. -/
def sampleApplied : AutomappingManager :=
  (autoMapInternal sampleEnv 1 { rects := [] } none sampleUnloaded).getD
    AutomappingManager.init

/-! ## Lemmas on strings -/

theorem skipLine_iff_isComment (t : QString) : skipLine t = true ↔ isComment t := by
  unfold skipLine isComment QString.isEmpty QString.startsWithChar QString.startsWith
    QString.equalUnder
  rcases t with _ | ⟨c, _ | ⟨d, rest⟩⟩
  · simp
  · simp [List.isPrefixOf]
  · have h2 : "//".toList = ['/', '/'] := rfl
    simp only [h2, List.cons_prefix_cons]
    simp
    constructor
    · rintro (h | ⟨rfl, rfl⟩)
      · exact Or.inl h
      · exact Or.inr ⟨rfl, rfl⟩
    · rintro (h | ⟨rfl, rfl⟩)
      · exact Or.inl h
      · exact Or.inr ⟨rfl, rfl⟩

/-! ## C1: the walk over the lines of a rules file -/

theorem loadRulesLines_eq_loadListed
    (callee : QString → AutomappingManager → Option (Bool × AutomappingManager))
    (env : Env) (filePath : QString) (lines : List QString) :
    ∀ (ret : Bool) (m : AutomappingManager),
      loadRulesLines callee env (env.dir filePath) filePath lines ret m =
        loadListed callee env filePath (listedPaths env filePath lines) ret m := by
  induction lines with
  | nil => intro ret m; rfl
  | cons line rest ih =>
    intro ret m
    by_cases hs : skipLine (QString.trimmed line) = true
    · have hc : isComment (QString.trimmed line) := (skipLine_iff_isComment _).1 hs
      have hl : listedPaths env filePath (line :: rest) = listedPaths env filePath rest := by
        simp [listedPaths, hc]
      rw [hl, ← ih]
      simp [loadRulesLines, hs]
    · have hc : ¬ isComment (QString.trimmed line) := fun h => hs ((skipLine_iff_isComment _).2 h)
      have hl : listedPaths env filePath (line :: rest) =
          env.filePath (env.dir filePath) (QString.trimmed line) :: listedPaths env filePath rest := by
        simp [listedPaths, hc]
      rw [hl]
      simp only [loadRulesLines, hs, loadListed]
      by_cases hex : env.fileExists (env.filePath (env.dir filePath) (QString.trimmed line)) = true
      · simp only [hex]
        simp only [Bool.not_true, Bool.false_eq_true, if_false, if_true]
        cases hcall : callee (env.filePath (env.dir filePath) (QString.trimmed line)) m with
        | none => rfl
        | some r =>
          obtain ⟨ok, m1⟩ := r
          simp only []
          rw [ih]
          cases ok <;> simp
      · simp only [Bool.not_eq_true] at hex
        simp only [hex]
        simp only [Bool.not_false, if_true, Bool.false_eq_true, if_false]
        rw [ih]

/-- C1 (amended): for a rules file that exists and opens, whatever the callee
`loadFile` does, `loadRulesFile` registers the file with the watcher and then
goes through the listed paths in file order, where the listed paths are the
trimmed lines that are not comments (empty, starting with `#` or `//`),
resolved against the directory of the rules file.  A comment line causes no
load attempt and no error.  A listed path that exists is handed to `loadFile`
exactly once; a listed path that does not exist is not handed to `loadFile`,
a "File not found" error is appended instead. -/
theorem loadRulesFile_walks_listed_paths
    (callee : QString → AutomappingManager → Option (Bool × AutomappingManager))
    (env : Env) (held : Nat) (filePath : QString) (m : AutomappingManager)
    (lines : List QString)
    (hexists : env.fileExists filePath = true)
    (hopen : env.openFile held filePath = some lines) :
    loadRulesFile callee env held filePath m =
      loadListed callee env filePath (listedPaths env filePath lines) true
        { m with mWatcher := m.mWatcher.addPath filePath } := by
  unfold loadRulesFile
  simp only [hexists, hopen, Bool.not_true, Bool.false_eq_true, if_false]
  exact loadRulesLines_eq_loadListed callee env filePath lines true _

/-- The walk of C1 on `/m/rules.txt` of the sample file system. -/
theorem loadRulesFile_walks_listed_paths_witness :
    sampleEnv.fileExists "/m/rules.txt".toList = true ∧
    sampleEnv.openFile 0 "/m/rules.txt".toList = some sampleLines ∧
    loadRulesFile (loadFile sampleEnv 2 1) sampleEnv 0 "/m/rules.txt".toList
        AutomappingManager.init =
      loadListed (loadFile sampleEnv 2 1) sampleEnv "/m/rules.txt".toList
        (listedPaths sampleEnv "/m/rules.txt".toList sampleLines) true
        { AutomappingManager.init with
          mWatcher := AutomappingManager.init.mWatcher.addPath "/m/rules.txt".toList } :=
  ⟨by decide, by decide,
    loadRulesFile_walks_listed_paths (loadFile sampleEnv 2 1) sampleEnv 0 "/m/rules.txt".toList
      AutomappingManager.init sampleLines (by decide) (by decide)⟩

/-- C1 as stated fails: `/m/rules.txt` exists and opens and lists
`missing.tmx`, which does not exist; the result of `loadRulesFile` is not the
result of handing every listed path to `loadFile`. -/
theorem loadRulesFile_skips_loadFile_for_missing_file :
    sampleEnv.fileExists "/m/rules.txt".toList = true ∧
    sampleEnv.openFile 0 "/m/rules.txt".toList = some sampleLines ∧
    loadRulesFile (loadFile sampleEnv 2 1) sampleEnv 0 "/m/rules.txt".toList
        AutomappingManager.init ≠
      loadEach (loadFile sampleEnv 2 1)
        (listedPaths sampleEnv "/m/rules.txt".toList sampleLines) true
        { AutomappingManager.init with
          mWatcher := AutomappingManager.init.mWatcher.addPath "/m/rules.txt".toList } := by
  decide

theorem char_eq_of_toNat {c : Char} {n : Nat} (h : c.toNat = n) : c = Char.ofNat n := by
  rw [← h, Char.ofNat_toNat]

theorem ofNat_add_eq_t {n : Nat} (h1 : 65 ≤ n) (h2 : n ≤ 90) :
    Char.ofNat (n + 32) = 't' ↔ n = 84 := by
  interval_cases n <;> decide

theorem ofNat_add_eq_x {n : Nat} (h1 : 65 ≤ n) (h2 : n ≤ 90) :
    Char.ofNat (n + 32) = 'x' ↔ n = 88 := by
  interval_cases n <;> decide

theorem ofNat_add_ne_dot {n : Nat} (h1 : 65 ≤ n) (h2 : n ≤ 90) :
    Char.ofNat (n + 32) ≠ '.' := by
  interval_cases n <;> decide

theorem toCaseFolded_eq_t (c : Char) : QChar.toCaseFolded c = 't' ↔ c = 't' ∨ c = 'T' := by
  unfold QChar.toCaseFolded Char.toLower
  by_cases h : c.toNat ≥ 65 ∧ c.toNat ≤ 90
  · simp only [h, and_self, if_true]
    rw [ofNat_add_eq_t h.1 h.2]
    constructor
    · intro h84
      exact Or.inr (char_eq_of_toNat h84)
    · rintro (rfl | rfl)
      · exact absurd h (by decide)
      · rfl
  · simp only [h, if_false]
    constructor
    · exact Or.inl
    · rintro (rfl | rfl)
      · rfl
      · exact absurd (show 'T'.toNat ≥ 65 ∧ 'T'.toNat ≤ 90 by decide) h

theorem toCaseFolded_eq_x (c : Char) : QChar.toCaseFolded c = 'x' ↔ c = 'x' ∨ c = 'X' := by
  unfold QChar.toCaseFolded Char.toLower
  by_cases h : c.toNat ≥ 65 ∧ c.toNat ≤ 90
  · simp only [h, and_self, if_true]
    rw [ofNat_add_eq_x h.1 h.2]
    constructor
    · intro h88
      exact Or.inr (char_eq_of_toNat h88)
    · rintro (rfl | rfl)
      · exact absurd h (by decide)
      · rfl
  · simp only [h, if_false]
    constructor
    · exact Or.inl
    · rintro (rfl | rfl)
      · rfl
      · exact absurd (show 'X'.toNat ≥ 65 ∧ 'X'.toNat ≤ 90 by decide) h

theorem toCaseFolded_eq_dot (c : Char) : QChar.toCaseFolded c = '.' ↔ c = '.' := by
  unfold QChar.toCaseFolded Char.toLower
  by_cases h : c.toNat ≥ 65 ∧ c.toNat ≤ 90
  · simp only [h, and_self, if_true]
    constructor
    · intro hd
      exact absurd hd (ofNat_add_ne_dot h.1 h.2)
    · rintro rfl
      exact absurd h (by decide)
  · simp only [h, if_false]

/-- The suffixes that `endsWith(".txt", Qt::CaseInsensitive)` accepts. -/
theorem endsWith_txt_iff (p : QString) :
    QString.endsWith p ".txt".toList .CaseInsensitive = true ↔
      ∃ (stem : QString) (a b c : Char), p = stem ++ ['.', a, b, c] ∧
        (a = 't' ∨ a = 'T') ∧ (b = 'x' ∨ b = 'X') ∧ (c = 't' ∨ c = 'T') := by
  have hlit : ".txt".toList = ['.', 't', 'x', 't'] := rfl
  have hfold : List.map QChar.toCaseFolded ['.', 't', 'x', 't'] = ['.', 't', 'x', 't'] := by
    decide
  unfold QString.endsWith
  rw [hlit]
  simp only [QString.equalUnder, hfold, List.length_cons, List.length_nil, Bool.and_eq_true,
    decide_eq_true_eq, beq_iff_eq]
  constructor
  · rintro ⟨hlen, hmap⟩
    have hsplit : p = p.take (p.length - 4) ++ p.drop (p.length - 4) :=
      (List.take_append_drop _ _).symm
    generalize p.drop (p.length - 4) = suffix at hmap hsplit
    rcases suffix with _ | ⟨d, _ | ⟨a, _ | ⟨b, _ | ⟨c, _ | ⟨e, tl⟩⟩⟩⟩⟩
    · exact absurd hmap (by simp)
    · exact absurd hmap (by simp)
    · exact absurd hmap (by simp)
    · exact absurd hmap (by simp)
    · simp only [List.map_cons, List.map_nil, List.cons.injEq, and_true] at hmap
      obtain ⟨hd, ha, hb, hc⟩ := hmap
      rw [toCaseFolded_eq_dot] at hd
      subst hd
      exact ⟨_, a, b, c, hsplit, (toCaseFolded_eq_t a).1 ha, (toCaseFolded_eq_x b).1 hb,
        (toCaseFolded_eq_t c).1 hc⟩
    · exact absurd hmap (by simp)
  · rintro ⟨stem, a, b, c, rfl, ha, hb, hc⟩
    refine ⟨by simp, ?_⟩
    have hdrop : List.drop ((stem ++ ['.', a, b, c]).length - 4) (stem ++ ['.', a, b, c])
        = ['.', a, b, c] := by
      have : (stem ++ ['.', a, b, c]).length - 4 = stem.length := by simp
      rw [this, List.drop_left]
    rw [hdrop]
    simp only [List.map_cons, List.map_nil]
    rw [(toCaseFolded_eq_dot '.').2 rfl, (toCaseFolded_eq_t a).2 ha, (toCaseFolded_eq_x b).2 hb,
      (toCaseFolded_eq_t c).2 hc]

/-! ## C2: the dispatch of `loadFile` -/

/-- C2: `loadFile` parses the path as a rules file exactly when the path ends
with `.txt` compared case-insensitively, that is when it is some stem followed
by a full stop and the letters t, x, t in either case; every other path is
loaded as a rule map, and the result of `loadFile` is the result of the loader
chosen. -/
theorem loadFile_dispatches_on_txt_suffix (env : Env) (depth held : Nat) (filePath : QString)
    (m : AutomappingManager) :
    (QString.endsWith filePath ".txt".toList .CaseInsensitive = true ↔
      ∃ (stem : QString) (a b c : Char), filePath = stem ++ ['.', a, b, c] ∧
        (a = 't' ∨ a = 'T') ∧ (b = 'x' ∨ b = 'X') ∧ (c = 't' ∨ c = 'T')) ∧
    loadFile env (depth + 1) held filePath m =
      (if QString.endsWith filePath ".txt".toList .CaseInsensitive = true then
        loadRulesFile (loadFile env depth (held + 1)) env held filePath m
      else some (loadRuleMap env filePath m)) :=
  ⟨endsWith_txt_iff filePath, rfl⟩

/-! ## The three outcomes of `loadRuleMap` -/

theorem loadRuleMap_of_unreadable (env : Env) (filePath : QString) (m : AutomappingManager)
    (errorString : QString) (hread : env.readMap filePath = .error errorString) :
    loadRuleMap env filePath m =
      (false, reportError m (msgOpeningFailed filePath errorString)) := by
  unfold loadRuleMap
  simp only [hread]

theorem loadRuleMap_of_setup (env : Env) (filePath : QString) (m : AutomappingManager)
    (rules : Map) (hread : env.readMap filePath = .ok rules)
    (herr : (AutoMapper.new env m.mMapDocument rules filePath).errorString = []) :
    loadRuleMap env filePath m =
      (true, { m with
        mWarning := m.mWarning ++ (AutoMapper.new env m.mMapDocument rules filePath).warningString
        mAutoMappers := m.mAutoMappers ++ [AutoMapper.new env m.mMapDocument rules filePath]
        mWatcher := m.mWatcher.addPath filePath }) := by
  unfold loadRuleMap
  simp only [hread]
  generalize AutoMapper.new env m.mMapDocument rules filePath = a at herr
  simp [herr, QString.isEmpty]

theorem loadRuleMap_of_setup_error (env : Env) (filePath : QString) (m : AutomappingManager)
    (rules : Map) (hread : env.readMap filePath = .ok rules)
    (herr : (AutoMapper.new env m.mMapDocument rules filePath).errorString ≠ []) :
    loadRuleMap env filePath m =
      (true, { m with
        mWarning := m.mWarning ++ (AutoMapper.new env m.mMapDocument rules filePath).warningString
        mError := m.mError ++ (AutoMapper.new env m.mMapDocument rules filePath).errorString })
      := by
  unfold loadRuleMap
  simp only [hread]
  generalize AutoMapper.new env m.mMapDocument rules filePath = a at herr
  simp [herr, QString.isEmpty]

/-! ## C3: what `loadRuleMap` adds -/

/-- C3 (amended): for every rule map file that `readMap` reads successfully,
`loadRuleMap` constructs one `AutoMapper` for that file and returns true; when
the error string of that `AutoMapper` is empty it is appended to `mAutoMappers`
(exactly one is added), and when it is not empty `mAutoMappers` is left as it
was and the error string is appended to `mError`. -/
theorem loadRuleMap_adds_autoMapper_without_error (env : Env) (filePath : QString)
    (m : AutomappingManager) (rules : Map) (hread : env.readMap filePath = .ok rules) :
    (AutoMapper.new env m.mMapDocument rules filePath).mRulesMapFileName = filePath ∧
    (loadRuleMap env filePath m).1 = true ∧
    (loadRuleMap env filePath m).2.mAutoMappers =
      (if (AutoMapper.new env m.mMapDocument rules filePath).errorString = [] then
        m.mAutoMappers ++ [AutoMapper.new env m.mMapDocument rules filePath]
      else m.mAutoMappers) ∧
    (loadRuleMap env filePath m).2.mError =
      (if (AutoMapper.new env m.mMapDocument rules filePath).errorString = [] then m.mError
      else m.mError ++ (AutoMapper.new env m.mMapDocument rules filePath).errorString) := by
  refine ⟨rfl, ?_⟩
  by_cases herr : (AutoMapper.new env m.mMapDocument rules filePath).errorString = []
  · rw [loadRuleMap_of_setup env filePath m rules hread herr]
    simp [herr]
  · rw [loadRuleMap_of_setup_error env filePath m rules hread herr]
    simp [herr]

/-- The amended C3 on the rule map `/m/a.tmx` of the sample file system. -/
theorem loadRuleMap_adds_autoMapper_without_error_witness :
    sampleEnv.readMap "/m/a.tmx".toList = .ok { width := 1, height := 1, infinite := false } ∧
    (loadRuleMap sampleEnv "/m/a.tmx".toList AutomappingManager.init).2.mAutoMappers =
      [AutoMapper.new sampleEnv none { width := 1, height := 1, infinite := false }
        "/m/a.tmx".toList] :=
  ⟨rfl,
    (loadRuleMap_adds_autoMapper_without_error sampleEnv "/m/a.tmx".toList
      AutomappingManager.init { width := 1, height := 1, infinite := false } rfl).2.2.1⟩

/-- C3 as stated fails: `readMap` reads `/m/sub/b.tmx` successfully, and
`loadRuleMap` adds no `AutoMapper` to `mAutoMappers`. -/
theorem loadRuleMap_adds_nothing_on_setup_error :
    sampleEnv.readMap "/m/sub/b.tmx".toList = .ok { width := 2, height := 2, infinite := false } ∧
    ¬ ∃ a : AutoMapper,
      (loadRuleMap sampleEnv "/m/sub/b.tmx".toList AutomappingManager.init).2.mAutoMappers =
        AutomappingManager.init.mAutoMappers ++ [a] := by
  refine ⟨rfl, ?_⟩
  rintro ⟨a, ha⟩
  have hnil : (loadRuleMap sampleEnv "/m/sub/b.tmx".toList AutomappingManager.init).2.mAutoMappers
      = [] := by decide
  rw [hnil] at ha
  exact absurd ha (by simp [AutomappingManager.init])

/-! ## How a load changes the manager -/

theorem grows_refl (env : Env) (ret : Bool) (m : AutomappingManager) : Grows env ret m ret m := by
  refine ⟨[], [], by simp, by simp, by simp, by simp, by simp, by simp, ?_, rfl⟩
  exact fun _ h => h

theorem grows_trans {env : Env} {r0 r1 r2 : Bool} {m0 m1 m2 : AutomappingManager}
    (h01 : Grows env r0 m0 r1 m1) (h12 : Grows env r1 m1 r2 m2) : Grows env r0 m0 r2 m2 := by
  obtain ⟨es1, s1, he1, hs1, hl1, hr1, hes1, hse1, hw1, hd1⟩ := h01
  obtain ⟨es2, s2, he2, hs2, hl2, hr2, hes2, hse2, hw2, hd2⟩ := h12
  refine ⟨es1 ++ es2, s1 ++ s2, ?_, ?_, ?_, ?_, ?_, ?_, ?_, ?_⟩
  · rw [he2, he1, List.append_assoc]
  · rw [hs2, hs1, List.append_assoc]
  · intro e he
    rcases List.mem_append.1 he with h | h
    · exact hl1 e h
    · exact hl2 e h
  · rw [hr2, hr1]
    simp only [ne_eq, List.append_eq_nil, not_and_or]
    exact or_assoc
  · intro h
    simp only [ne_eq, List.append_eq_nil, not_and_or] at h ⊢
    rcases h with h | h
    · exact Or.inl (hes1 h)
    · exact Or.inr (hes2 h)
  · intro hno h
    simp only [ne_eq, List.append_eq_nil, not_and_or] at h ⊢
    rcases h with h | h
    · exact Or.inl (hse1 hno h)
    · exact Or.inr (hse2 hno h)
  · exact fun f hf => hw2 (hw1 hf)
  · rw [hd2, hd1]

theorem grows_reportError (env : Env) (r0 : Bool) (m : AutomappingManager) (error : QString) :
    Grows env r0 m false (reportError m error) := by
  refine ⟨[Effect.logError error], error ++ ['\n'], ?_, ?_, ?_, ?_, ?_, ?_, ?_, rfl⟩
  · rfl
  · simp [reportError]
  · intro e he
    exact ⟨error, by simpa using he⟩
  · simp
  · intro _
    simp
  · intro _ _
    simp
  · exact fun _ h => h

theorem grows_addPath (env : Env) (ret : Bool) (m : AutomappingManager) (p : QString) :
    Grows env ret m ret { m with mWatcher := m.mWatcher.addPath p } := by
  refine ⟨[], [], by simp, by simp, by simp, by simp, by simp, by simp, ?_, rfl⟩
  intro f hf
  simp only [QFileSystemWatcher.addPath]
  split
  · exact hf
  · exact List.mem_append_left _ hf

theorem grows_and_ret {env : Env} {ok : Bool} {m m1 : AutomappingManager} (ret : Bool)
    (h : Grows env true m ok m1) : Grows env ret m (ret && ok) m1 := by
  obtain ⟨es, s, he, hs, hl, hr, hes, hse, hw, hd⟩ := h
  refine ⟨es, s, he, hs, hl, ?_, hes, hse, hw, hd⟩
  simp only [Bool.true_eq_false, false_or] at hr
  rw [← hr]
  cases ret <;> cases ok <;> simp

theorem grows_loadRuleMap (env : Env) (filePath : QString) (m : AutomappingManager) :
    Grows env true m (loadRuleMap env filePath m).1 (loadRuleMap env filePath m).2 := by
  cases hread : env.readMap filePath with
  | error errorString =>
    rw [loadRuleMap_of_unreadable env filePath m errorString hread]
    exact grows_reportError env true m _
  | ok rules =>
    by_cases herr : (AutoMapper.new env m.mMapDocument rules filePath).errorString = []
    · rw [loadRuleMap_of_setup env filePath m rules hread herr]
      refine ⟨[], [], by simp, by simp, by simp, by simp, by simp, by simp, ?_, rfl⟩
      intro f hf
      simp only [QFileSystemWatcher.addPath]
      split
      · exact hf
      · exact List.mem_append_left _ hf
    · rw [loadRuleMap_of_setup_error env filePath m rules hread herr]
      refine ⟨[], (AutoMapper.new env m.mMapDocument rules filePath).errorString,
        by simp, rfl, by simp, by simp, by simp, ?_, fun _ h => h, rfl⟩
      intro hno _
      exact absurd (hno m.mMapDocument rules filePath) herr

/-- A callee each of whose results is related to its start by `Grows`. -/
theorem grows_loadListed {env : Env}
    {callee : QString → AutomappingManager → Option (Bool × AutomappingManager)}
    (hcallee : ∀ p m ok m1, callee p m = some (ok, m1) → Grows env true m ok m1)
    (filePath : QString) (paths : List QString) :
    ∀ (r0 : Bool) (m : AutomappingManager) (ret : Bool) (m1 : AutomappingManager),
      loadListed callee env filePath paths r0 m = some (ret, m1) → Grows env r0 m ret m1 := by
  induction paths with
  | nil =>
    intro r0 m ret m1 h
    simp only [loadListed, Option.some.injEq, Prod.mk.injEq] at h
    obtain ⟨rfl, rfl⟩ := h
    exact grows_refl env _ _
  | cons p ps ih =>
    intro r0 m ret m1 h
    simp only [loadListed] at h
    by_cases hex : env.fileExists p = true
    · simp only [hex, if_true] at h
      cases hcall : callee p m with
      | none => simp [hcall] at h
      | some r =>
        obtain ⟨ok, m2⟩ := r
        simp only [hcall] at h
        exact grows_trans (grows_and_ret r0 (hcallee p m ok m2 hcall)) (ih _ _ _ _ h)
    · simp only [hex, if_false] at h
      exact grows_trans (grows_reportError env r0 m _) (ih _ _ _ _ h)

theorem grows_loadRulesFile {env : Env}
    {callee : QString → AutomappingManager → Option (Bool × AutomappingManager)}
    (hcallee : ∀ p m ok m1, callee p m = some (ok, m1) → Grows env true m ok m1)
    (held : Nat) (filePath : QString) (m : AutomappingManager) (ret : Bool)
    (m1 : AutomappingManager)
    (h : loadRulesFile callee env held filePath m = some (ret, m1)) :
    Grows env true m ret m1 := by
  unfold loadRulesFile at h
  by_cases hex : env.fileExists filePath = true
  · simp only [hex, Bool.not_true, Bool.false_eq_true, if_false] at h
    cases hopen : env.openFile held filePath with
    | none =>
      simp only [hopen, Option.some.injEq, Prod.mk.injEq] at h
      obtain ⟨rfl, rfl⟩ := h
      exact grows_reportError env true m _
    | some lines =>
      simp only [hopen] at h
      rw [loadRulesLines_eq_loadListed] at h
      exact grows_trans (grows_addPath env true m filePath)
        (grows_loadListed hcallee filePath _ _ _ _ _ h)
  · simp only [Bool.not_eq_true] at hex
    simp only [hex, Bool.not_false, if_true, Option.some.injEq, Prod.mk.injEq] at h
    obtain ⟨rfl, rfl⟩ := h
    exact grows_reportError env true m _

theorem grows_loadFile (env : Env) :
    ∀ (depth held : Nat) (filePath : QString) (m : AutomappingManager) (ret : Bool)
      (m1 : AutomappingManager),
      loadFile env depth held filePath m = some (ret, m1) → Grows env true m ret m1 := by
  intro depth
  induction depth with
  | zero =>
    intro held filePath m ret m1 h
    simp [loadFile] at h
  | succ depth ih =>
    intro held filePath m ret m1 h
    simp only [loadFile] at h
    by_cases htxt : QString.endsWith filePath ".txt".toList .CaseInsensitive = true
    · simp only [htxt, if_true] at h
      exact grows_loadRulesFile (ih (held + 1)) held filePath m ret m1 h
    · simp only [Bool.not_eq_true] at htxt
      simp only [htxt, Bool.false_eq_true, if_false, Option.some.injEq] at h
      have := grows_loadRuleMap env filePath m
      rw [h] at this
      exact this

/-! ## The permitted depth -/

theorem loadRulesLines_mono {env : Env}
    {callee callee1 : QString → AutomappingManager → Option (Bool × AutomappingManager)}
    (hcallee : ∀ p m r, callee p m = some r → callee1 p m = some r)
    (absPath : QDir) (filePath : QString) (lines : List QString) :
    ∀ (r0 : Bool) (m : AutomappingManager) (r : Bool × AutomappingManager),
      loadRulesLines callee env absPath filePath lines r0 m = some r →
      loadRulesLines callee1 env absPath filePath lines r0 m = some r := by
  induction lines with
  | nil => intro r0 m r h; exact h
  | cons line rest ih =>
    intro r0 m r h
    simp only [loadRulesLines] at h ⊢
    split at h
    · rename_i hs
      simp only [hs, if_true]
      exact ih _ _ _ h
    · rename_i hs
      simp only [hs, if_false]
      split at h
      · rename_i hex
        simp only [hex, if_true]
        exact ih _ _ _ h
      · rename_i hex
        simp only [hex, if_false]
        cases hcall : callee (env.filePath absPath (QString.trimmed line)) m with
        | none => simp [hcall] at h
        | some res =>
          obtain ⟨ok, m2⟩ := res
          simp only [hcall] at h
          simp only [hcallee _ _ _ hcall]
          exact ih _ _ _ h

/-- A result that `loadFile` reaches within some depth is its result within
every larger depth. -/
theorem loadFile_mono (env : Env) :
    ∀ (depth depth1 held : Nat) (filePath : QString) (m : AutomappingManager)
      (r : Bool × AutomappingManager), depth ≤ depth1 →
      loadFile env depth held filePath m = some r →
      loadFile env depth1 held filePath m = some r := by
  intro depth
  induction depth with
  | zero =>
    intro depth1 held filePath m r _ h
    simp [loadFile] at h
  | succ depth ih =>
    intro depth1 held filePath m r hle h
    obtain ⟨d, rfl⟩ : ∃ d, depth1 = d + 1 := ⟨depth1 - 1, by omega⟩
    have hd : depth ≤ d := by omega
    simp only [loadFile] at h ⊢
    split at h
    · rename_i htxt
      simp only [htxt, if_true]
      unfold loadRulesFile at h ⊢
      split at h
      · rename_i hex
        simp only [hex, if_true]
        exact h
      · rename_i hex
        simp only [hex, if_false]
        cases hopen : env.openFile held filePath with
        | none =>
          simp only [hopen] at h
          exact h
        | some lines =>
          simp only [hopen] at h
          exact loadRulesLines_mono (fun p m r hr => ih d (held + 1) p m r hd hr) _ _ _ _ _ _ h
    · rename_i htxt
      simp only [htxt, if_false]
      exact h

/-! ## The end of the walk -/

theorem openFile_some {env : Env} {held : Nat} {filePath : QString} {lines : List QString}
    (h : env.openFile held filePath = some lines) :
    held < env.maxOpenFiles ∧ env.openText filePath = some lines := by
  unfold Env.openFile at h
  by_cases hlt : held < env.maxOpenFiles
  · simp only [hlt, if_true] at h
    exact ⟨hlt, h⟩
  · simp only [hlt, if_false] at h
    exact absurd h (by simp)

theorem loadListed_some {env : Env}
    {callee : QString → AutomappingManager → Option (Bool × AutomappingManager)}
    (filePath : QString) (paths : List QString)
    (hcallee : ∀ q m, ∃ r, callee q m = some r) :
    ∀ (r0 : Bool) (m : AutomappingManager),
      ∃ r, loadListed callee env filePath paths r0 m = some r := by
  induction paths with
  | nil => intro r0 m; exact ⟨(r0, m), rfl⟩
  | cons p ps ih =>
    intro r0 m
    simp only [loadListed]
    by_cases hpe : env.fileExists p = true
    · simp only [hpe, if_true]
      obtain ⟨⟨ok, m2⟩, hr⟩ := hcallee p m
      simp only [hr]
      exact ih _ _
    · simp only [hpe, if_false]
      exact ih _ _

/-- The nesting of rules files ends when no descriptor is left: within the
depth `maxOpenFiles - held + 1` the call of `loadFile` returns. -/
theorem loadFile_some (env : Env) :
    ∀ (depth held : Nat) (filePath : QString) (m : AutomappingManager),
      env.maxOpenFiles - held + 1 ≤ depth →
      ∃ r, loadFile env depth held filePath m = some r := by
  intro depth
  induction depth with
  | zero => intro held filePath m h; omega
  | succ depth ih =>
    intro held filePath m hd
    simp only [loadFile]
    by_cases htxt : QString.endsWith filePath ".txt".toList .CaseInsensitive = true
    · simp only [htxt, if_true]
      unfold loadRulesFile
      by_cases hex : env.fileExists filePath = true
      · simp only [hex, Bool.not_true, Bool.false_eq_true, if_false]
        cases hopen : env.openFile held filePath with
        | none => exact ⟨_, rfl⟩
        | some lines =>
          simp only []
          rw [loadRulesLines_eq_loadListed]
          have hlt := (openFile_some hopen).1
          exact loadListed_some filePath _
            (fun q m' => ih (held + 1) q m' (by omega)) _ _
      · simp only [Bool.not_eq_true] at hex
        simp only [hex, Bool.not_false, if_true]
        exact ⟨_, rfl⟩
    · simp only [Bool.not_eq_true] at htxt
      simp only [htxt, Bool.false_eq_true, if_false]
      exact ⟨_, rfl⟩

/-- The result of `loadFile` is the same for every depth within which it
returns. -/
theorem loadFile_unique (env : Env) (depth depth1 held : Nat) (filePath : QString)
    (m : AutomappingManager) (r r1 : Bool × AutomappingManager)
    (h : loadFile env depth held filePath m = some r)
    (h1 : loadFile env depth1 held filePath m = some r1) : r1 = r := by
  by_cases hle : depth ≤ depth1
  · have := loadFile_mono env depth depth1 held filePath m r hle h
    rw [h1] at this
    exact Option.some.inj this
  · have := loadFile_mono env depth1 depth held filePath m r1 (by omega) h1
    rw [h] at this
    exact (Option.some.inj this).symm

/-! ## The errors of a load -/

theorem accounts_refl (ret : Bool) (m : AutomappingManager) : Accounts [] ret m ret m := by
  refine ⟨by simp, by simp, by simp, rfl⟩

theorem accounts_trans {items1 items2 : List ErrorItem} {r0 r1 r2 : Bool}
    {m0 m1 m2 : AutomappingManager}
    (h01 : Accounts items1 r0 m0 r1 m1) (h12 : Accounts items2 r1 m1 r2 m2) :
    Accounts (items1 ++ items2) r0 m0 r2 m2 := by
  obtain ⟨he1, hf1, hr1, hd1⟩ := h01
  obtain ⟨he2, hf2, hr2, hd2⟩ := h12
  refine ⟨?_, ?_, ?_, by rw [hd2, hd1]⟩
  · rw [he2, he1, List.flatMap_append, List.append_assoc]
  · rw [hf2, hf1, List.flatMap_append, List.append_assoc]
  · rw [hr2, hr1]
    constructor
    · rintro ((h | ⟨i, hi, hrep⟩) | ⟨i, hi, hrep⟩)
      · exact Or.inl h
      · exact Or.inr ⟨i, List.mem_append_left _ hi, hrep⟩
      · exact Or.inr ⟨i, List.mem_append_right _ hi, hrep⟩
    · rintro (h | ⟨i, hi, hrep⟩)
      · exact Or.inl (Or.inl h)
      · rcases List.mem_append.1 hi with hi | hi
        · exact Or.inl (Or.inr ⟨i, hi, hrep⟩)
        · exact Or.inr ⟨i, hi, hrep⟩

theorem accounts_reportError (r0 : Bool) (m : AutomappingManager) (error : QString) :
    Accounts [ErrorItem.reported error] r0 m false (reportError m error) := by
  refine ⟨?_, ?_, ?_, rfl⟩
  · simp [reportError, ErrorItem.text]
  · simp [reportError, ErrorItem.logged]
  · simp [ErrorItem.isReported]

theorem accounts_addPath (ret : Bool) (m : AutomappingManager) (p : QString) :
    Accounts [] ret m ret { m with mWatcher := m.mWatcher.addPath p } := by
  refine ⟨by simp, by simp, by simp, rfl⟩

theorem accounts_and_ret {items : List ErrorItem} {ok : Bool} {m m1 : AutomappingManager}
    (ret : Bool) (h : Accounts items true m ok m1) : Accounts items ret m (ret && ok) m1 := by
  obtain ⟨he, hf, hr, hd⟩ := h
  refine ⟨he, hf, ?_, hd⟩
  simp only [Bool.true_eq_false, false_or] at hr
  rw [← hr]
  cases ret <;> cases ok <;> simp

theorem accounts_loadRuleMap (env : Env) (filePath : QString) (m : AutomappingManager) :
    Accounts
      (match env.readMap filePath with
        | .error errorString => [ErrorItem.reported (msgOpeningFailed filePath errorString)]
        | .ok rules =>
          if QString.isEmpty (AutoMapper.new env m.mMapDocument rules filePath).errorString
          then []
          else [ErrorItem.setUp (AutoMapper.new env m.mMapDocument rules filePath).errorString])
      true m (loadRuleMap env filePath m).1 (loadRuleMap env filePath m).2 := by
  cases hread : env.readMap filePath with
  | error errorString =>
    rw [loadRuleMap_of_unreadable env filePath m errorString hread]
    exact accounts_reportError true m _
  | ok rules =>
    by_cases herr : (AutoMapper.new env m.mMapDocument rules filePath).errorString = []
    · rw [loadRuleMap_of_setup env filePath m rules hread herr]
      simp only [herr, QString.isEmpty, List.isEmpty_nil, if_true]
      refine ⟨by simp, by simp, by simp, rfl⟩
    · rw [loadRuleMap_of_setup_error env filePath m rules hread herr]
      have hne : QString.isEmpty (AutoMapper.new env m.mMapDocument rules filePath).errorString
          = false := by
        simpa [QString.isEmpty, List.isEmpty_iff] using herr
      simp only [hne, Bool.false_eq_true, if_false]
      refine ⟨by simp [ErrorItem.text], by simp [ErrorItem.logged], ?_, rfl⟩
      simp [ErrorItem.isReported]

theorem accounts_loadListed {env : Env}
    {callee : QString → AutomappingManager → Option (Bool × AutomappingManager)}
    (errors : Option MapDocument → QString → List ErrorItem)
    (hcallee : ∀ q m ok m1, callee q m = some (ok, m1) →
      Accounts (errors m.mMapDocument q) true m ok m1)
    (filePath : QString) (paths : List QString) :
    ∀ (r0 : Bool) (m : AutomappingManager) (ret : Bool) (m1 : AutomappingManager),
      loadListed callee env filePath paths r0 m = some (ret, m1) →
      Accounts
        (paths.flatMap fun q =>
          if env.fileExists q then errors m.mMapDocument q
          else [ErrorItem.reported (msgFileNotFound q filePath)])
        r0 m ret m1 := by
  induction paths with
  | nil =>
    intro r0 m ret m1 h
    simp only [loadListed, Option.some.injEq, Prod.mk.injEq] at h
    obtain ⟨rfl, rfl⟩ := h
    exact accounts_refl _ _
  | cons p ps ih =>
    intro r0 m ret m1 h
    simp only [loadListed] at h
    simp only [List.flatMap_cons]
    by_cases hex : env.fileExists p = true
    · simp only [hex, if_true] at h ⊢
      cases hcall : callee p m with
      | none => simp [hcall] at h
      | some r =>
        obtain ⟨ok, m2⟩ := r
        simp only [hcall] at h
        have hstep := hcallee p m ok m2 hcall
        have hrest := ih _ _ _ _ h
        rw [hstep.2.2.2] at hrest
        exact accounts_trans (accounts_and_ret r0 hstep) hrest
    · simp only [hex, if_false] at h ⊢
      have hrest := ih _ _ _ _ h
      exact accounts_trans (accounts_reportError r0 m _) hrest

/-- What `loadFile` leaves in `mError` and in the record of calls, and what it
returns, by the errors of the load. -/
theorem accounts_loadFile (env : Env) :
    ∀ (depth held : Nat) (filePath : QString) (m : AutomappingManager) (ret : Bool)
      (m1 : AutomappingManager),
      loadFile env depth held filePath m = some (ret, m1) →
      Accounts (loadErrors env m.mMapDocument depth held filePath) true m ret m1 := by
  intro depth
  induction depth with
  | zero =>
    intro held filePath m ret m1 h
    simp [loadFile] at h
  | succ depth ih =>
    intro held filePath m ret m1 h
    simp only [loadFile] at h
    simp only [loadErrors]
    by_cases htxt : QString.endsWith filePath ".txt".toList .CaseInsensitive = true
    · simp only [htxt, if_true] at h ⊢
      unfold loadRulesFile at h
      by_cases hex : env.fileExists filePath = true
      · simp only [hex, Bool.not_true, Bool.false_eq_true, if_false, if_true] at h ⊢
        cases hopen : env.openFile held filePath with
        | none =>
          simp only [hopen, Option.some.injEq, Prod.mk.injEq] at h
          obtain ⟨rfl, rfl⟩ := h
          exact accounts_reportError true m _
        | some lines =>
          simp only [hopen] at h
          rw [loadRulesLines_eq_loadListed] at h
          have := accounts_loadListed
            (fun doc q => loadErrors env doc depth (held + 1) q)
            (ih (held + 1)) filePath _ true
            { m with mWatcher := m.mWatcher.addPath filePath } ret m1 h
          exact accounts_trans (accounts_addPath true m filePath) this
      · simp only [Bool.not_eq_true] at hex
        simp only [hex, Bool.not_false, if_true, Option.some.injEq, Prod.mk.injEq,
          Bool.false_eq_true, if_false] at h ⊢
        obtain ⟨rfl, rfl⟩ := h
        exact accounts_reportError true m _
    · simp only [Bool.not_eq_true] at htxt
      simp only [htxt, Bool.false_eq_true, if_false, Option.some.injEq] at h ⊢
      have := accounts_loadRuleMap env filePath m
      rw [h] at this
      exact this

/-- Every error item of a load appends text to `mError`. -/
theorem loadErrors_text_ne_nil (env : Env) (doc : Option MapDocument) :
    ∀ (depth held : Nat) (filePath : QString),
      ∀ item ∈ loadErrors env doc depth held filePath, item.text ≠ [] := by
  intro depth
  induction depth with
  | zero =>
    intro held filePath item hi
    simp [loadErrors] at hi
  | succ depth ih =>
    intro held filePath item hi
    simp only [loadErrors] at hi
    by_cases htxt : QString.endsWith filePath ".txt".toList .CaseInsensitive = true
    · simp only [htxt, if_true] at hi
      by_cases hex : env.fileExists filePath = true
      · simp only [hex, if_true] at hi
        cases hopen : env.openFile held filePath with
        | none =>
          simp only [hopen, List.mem_singleton] at hi
          subst hi
          simp [ErrorItem.text]
        | some lines =>
          simp only [hopen, List.mem_flatMap] at hi
          obtain ⟨q, _, hq⟩ := hi
          by_cases hqe : env.fileExists q = true
          · simp only [hqe, if_true] at hq
            exact ih (held + 1) q item hq
          · simp only [Bool.not_eq_true] at hqe
            simp only [hqe, Bool.false_eq_true, if_false, List.mem_singleton] at hq
            subst hq
            simp [ErrorItem.text]
      · simp only [Bool.not_eq_true] at hex
        simp only [hex, Bool.false_eq_true, if_false, List.mem_singleton] at hi
        subst hi
        simp [ErrorItem.text]
    · simp only [Bool.not_eq_true] at htxt
      simp only [htxt, Bool.false_eq_true, if_false] at hi
      cases hread : env.readMap filePath with
      | error e =>
        simp only [hread, List.mem_singleton] at hi
        subst hi
        simp [ErrorItem.text]
      | ok rules =>
        simp only [hread] at hi
        by_cases herr : QString.isEmpty (AutoMapper.new env doc rules filePath).errorString = true
        · simp [herr] at hi
        · simp only [Bool.not_eq_true] at herr
          simp only [herr, Bool.false_eq_true, if_false, List.mem_singleton] at hi
          subst hi
          simp only [ErrorItem.text]
          intro hnil
          rw [hnil] at herr
          exact absurd herr (by decide)

theorem flatMap_text_eq_nil {items : List ErrorItem} (h : ∀ item ∈ items, item.text ≠ []) :
    items.flatMap ErrorItem.text = [] ↔ items = [] := by
  cases items with
  | nil => simp
  | cons i rest =>
    simp only [List.flatMap_cons, List.append_eq_nil, reduceCtorEq, iff_false, not_and]
    intro hi
    exact absurd hi (h i (List.mem_cons_self _ _))

/-! ## C4: the result of `loadFile` and the errors recorded -/

/-- C4 (amended): within the depth `maxOpenFiles - held + 1`, and with the same
result for every depth within which it returns, `loadFile` returns and leaves
`mError` and the record of calls as the errors of the load have it
(`loadErrors`): every reported error (a rules file that is missing or cannot be
opened, a listed file that is not found, a rule map that cannot be read)
appends its message and a line break to `mError` and makes one call of `ERROR`,
and the error string of an `AutoMapper` is appended to `mError` as it is,
without a call of `ERROR`.  `loadFile` returns false exactly when at least one
error was reported; then `mError` has grown.  `mError` has grown exactly when
the load had an error of either kind, so when the load had no error string of
an `AutoMapper`, `loadFile` returns false exactly when `mError` has grown. -/
theorem loadFile_false_iff_error_reported (env : Env) (depth held : Nat) (filePath : QString)
    (m : AutomappingManager) (hdepth : env.maxOpenFiles - held + 1 ≤ depth) :
    ∃ ret m1,
      loadFile env depth held filePath m = some (ret, m1) ∧
      (∀ depth1 r, loadFile env depth1 held filePath m = some r → r = (ret, m1)) ∧
      m1.mError = m.mError ++
        (loadErrors env m.mMapDocument depth held filePath).flatMap ErrorItem.text ∧
      m1.effects = m.effects ++
        (loadErrors env m.mMapDocument depth held filePath).flatMap ErrorItem.logged ∧
      (ret = false ↔
        ∃ item ∈ loadErrors env m.mMapDocument depth held filePath, item.isReported = true) ∧
      (m1.mError ≠ m.mError ↔ loadErrors env m.mMapDocument depth held filePath ≠ []) ∧
      (ret = false → m1.mError ≠ m.mError) ∧
      ((∀ item ∈ loadErrors env m.mMapDocument depth held filePath, item.isReported = true) →
        (ret = false ↔ m1.mError ≠ m.mError)) := by
  obtain ⟨⟨ret, m1⟩, h⟩ := loadFile_some env depth held filePath m hdepth
  obtain ⟨he, hf, hr, _⟩ := accounts_loadFile env depth held filePath m ret m1 h
  simp only [Bool.true_eq_false, false_or] at hr
  have hgrow : m1.mError ≠ m.mError ↔
      loadErrors env m.mMapDocument depth held filePath ≠ [] := by
    have hnil := flatMap_text_eq_nil
      (loadErrors_text_ne_nil env m.mMapDocument depth held filePath)
    rw [he, ne_eq, ne_eq, ← hnil]
    simp
  have hfalse : ret = false → loadErrors env m.mMapDocument depth held filePath ≠ [] := by
    intro hret
    obtain ⟨item, hi, _⟩ := hr.1 hret
    exact List.ne_nil_of_mem hi
  refine ⟨ret, m1, h, fun depth1 r h1 => loadFile_unique env depth depth1 held filePath m _ _ h h1,
    he, hf, hr, hgrow, fun hret => hgrow.2 (hfalse hret), fun hall => ?_⟩
  rw [hgrow, hr]
  constructor
  · rintro ⟨item, hi, _⟩
    exact List.ne_nil_of_mem hi
  · intro hne
    obtain ⟨item, hi⟩ := List.exists_mem_of_ne_nil _ hne
    exact ⟨item, hi, hall item hi⟩

/-- The amended C4 on the sample file system.  Loading `/m/rules.txt` reports a
file that is not found and appends the error string of an `AutoMapper`; it
returns false.  Loading the rule map `/m/a.tmx` has no error, returns true and
leaves `mError` as it was.  Loading `/f/rules.txt` of `faultyEnv` reports two
errors and has no error string of an `AutoMapper`. -/
theorem loadFile_false_iff_error_reported_witness :
    sampleEnv.maxOpenFiles - 0 + 1 ≤ 17 ∧
    loadErrors sampleEnv none 17 0 "/m/rules.txt".toList =
      [ErrorItem.reported (msgFileNotFound "/m/missing.tmx".toList "/m/rules.txt".toList),
        ErrorItem.setUp "No input layer found!".toList] ∧
    loadErrors sampleEnv none 17 0 "/m/a.tmx".toList = [] ∧
    (∃ ret m1,
      loadFile sampleEnv 17 0 "/m/rules.txt".toList AutomappingManager.init = some (ret, m1) ∧
      ret = false ∧
      m1.mError = AutomappingManager.init.mError ++
        (loadErrors sampleEnv none 17 0 "/m/rules.txt".toList).flatMap ErrorItem.text) ∧
    (∃ ret m1,
      loadFile sampleEnv 17 0 "/m/a.tmx".toList AutomappingManager.init = some (ret, m1) ∧
      ret = true ∧ m1.mError = AutomappingManager.init.mError) ∧
    loadErrors faultyEnv none 17 0 "/f/rules.txt".toList =
      [ErrorItem.reported (msgOpeningFailed "/f/bad.tmx".toList "unreadable".toList),
        ErrorItem.reported (msgFileNotFound "/f/gone.tmx".toList "/f/rules.txt".toList)] ∧
    (∃ ret m1,
      loadFile faultyEnv 17 0 "/f/rules.txt".toList AutomappingManager.init = some (ret, m1) ∧
      (ret = false ↔ m1.mError ≠ AutomappingManager.init.mError)) := by
  refine ⟨by decide, by decide, by decide, ?_, ?_, by decide, ?_⟩
  · obtain ⟨ret, m1, h, _, he, _, hr, _⟩ :=
      loadFile_false_iff_error_reported sampleEnv 17 0 "/m/rules.txt".toList
        AutomappingManager.init (by decide)
    refine ⟨ret, m1, h, hr.2 ⟨ErrorItem.reported
      (msgFileNotFound "/m/missing.tmx".toList "/m/rules.txt".toList), ?_, rfl⟩, he⟩
    · have hl : loadErrors sampleEnv AutomappingManager.init.mMapDocument 17 0
          "/m/rules.txt".toList =
          [ErrorItem.reported (msgFileNotFound "/m/missing.tmx".toList "/m/rules.txt".toList),
            ErrorItem.setUp "No input layer found!".toList] := by decide
      rw [hl]
      exact List.mem_cons_self _ _
  · obtain ⟨ret, m1, h, _, _, _, hr, hgrow, _, hall⟩ :=
      loadFile_false_iff_error_reported sampleEnv 17 0 "/m/a.tmx".toList
        AutomappingManager.init (by decide)
    have hl : loadErrors sampleEnv AutomappingManager.init.mMapDocument 17 0
        "/m/a.tmx".toList = [] := by decide
    rw [hl] at hr hgrow
    refine ⟨ret, m1, h, ?_, ?_⟩
    · cases ret with
      | true => rfl
      | false => exact absurd (hr.1 rfl) (by simp)
    · by_contra hne
      exact absurd (hgrow.1 hne) (by simp)
  · obtain ⟨ret, m1, h, _, _, _, _, _, _, hall⟩ :=
      loadFile_false_iff_error_reported faultyEnv 17 0 "/f/rules.txt".toList
        AutomappingManager.init (by decide)
    have hl : loadErrors faultyEnv AutomappingManager.init.mMapDocument 17 0
        "/f/rules.txt".toList =
        [ErrorItem.reported (msgOpeningFailed "/f/bad.tmx".toList "unreadable".toList),
          ErrorItem.reported (msgFileNotFound "/f/gone.tmx".toList "/f/rules.txt".toList)] := by
      decide
    refine ⟨ret, m1, h, hall ?_⟩
    rw [hl]
    intro item hi
    simp only [List.mem_cons, List.mem_singleton, List.not_mem_nil, or_false] at hi
    rcases hi with rfl | rfl <;> rfl

/-- C4 as stated fails: loading the rule map `/m/sub/b.tmx` returns true and
appends an error message to the empty `mError`. -/
theorem loadFile_true_with_error_appended :
    (loadFile sampleEnv 1 0 "/m/sub/b.tmx".toList AutomappingManager.init).map
        (fun r => (r.1, r.2.mError)) = some (true, "No input layer found!".toList) ∧
    AutomappingManager.init.mError = [] := by
  decide

/-! ## C5: errors do not stop the walk -/

theorem grows_mError {env : Env} {r0 ret : Bool} {m m1 : AutomappingManager}
    (h : Grows env r0 m ret m1) : m.mError <+: m1.mError := by
  obtain ⟨_, s, _, hs, _⟩ := h
  exact ⟨s, hs.symm⟩

theorem grows_effects {env : Env} {r0 ret : Bool} {m m1 : AutomappingManager}
    (h : Grows env r0 m ret m1) : m.effects <+: m1.effects := by
  obtain ⟨es, _, he, _⟩ := h
  exact ⟨es, he.symm⟩

theorem loadRuleMap_ret (env : Env) (filePath : QString) (m m' : AutomappingManager) :
    (loadRuleMap env filePath m).1 = (loadRuleMap env filePath m').1 := by
  unfold loadRuleMap
  cases env.readMap filePath with
  | error e => rfl
  | ok rules =>
    simp only []
    split <;> split <;> rfl

theorem loadListed_ret {env : Env}
    {callee : QString → AutomappingManager → Option (Bool × AutomappingManager)}
    (hcallee : ∀ p m m', (callee p m).map Prod.fst = (callee p m').map Prod.fst)
    (filePath : QString) (paths : List QString) :
    ∀ (r0 : Bool) (m m' : AutomappingManager),
      (loadListed callee env filePath paths r0 m).map Prod.fst =
        (loadListed callee env filePath paths r0 m').map Prod.fst := by
  induction paths with
  | nil => intro r0 m m'; rfl
  | cons p ps ih =>
    intro r0 m m'
    simp only [loadListed]
    by_cases hex : env.fileExists p = true
    · simp only [hex, if_true]
      have hc := hcallee p m m'
      cases h1 : callee p m with
      | none =>
        cases h2 : callee p m' with
        | none => rfl
        | some r2 => simp [h1, h2] at hc
      | some r1 =>
        cases h2 : callee p m' with
        | none => simp [h1, h2] at hc
        | some r2 =>
          obtain ⟨ok1, ma⟩ := r1
          obtain ⟨ok2, mb⟩ := r2
          simp only [h1, h2, Option.map_some', Option.some.injEq] at hc
          subst hc
          exact ih _ _ _
    · simp only [hex, if_false]
      exact ih _ _ _

theorem loadRulesFile_ret {env : Env}
    {callee : QString → AutomappingManager → Option (Bool × AutomappingManager)}
    (hcallee : ∀ p m m', (callee p m).map Prod.fst = (callee p m').map Prod.fst)
    (held : Nat) (filePath : QString) (m m' : AutomappingManager) :
    (loadRulesFile callee env held filePath m).map Prod.fst =
      (loadRulesFile callee env held filePath m').map Prod.fst := by
  unfold loadRulesFile
  by_cases hex : env.fileExists filePath = true
  · simp only [hex, Bool.not_true, Bool.false_eq_true, if_false]
    cases hopen : env.openFile held filePath with
    | none => rfl
    | some lines =>
      simp only []
      rw [loadRulesLines_eq_loadListed, loadRulesLines_eq_loadListed]
      exact loadListed_ret hcallee filePath _ _ _ _
  · simp only [Bool.not_eq_true] at hex
    simp only [hex, Bool.not_false, if_true]
    rfl

/-- Whether `loadFile` returns, and what it returns, does not depend on the
manager it is called on. -/
theorem loadFile_ret (env : Env) :
    ∀ (depth held : Nat) (filePath : QString) (m m' : AutomappingManager),
      (loadFile env depth held filePath m).map Prod.fst =
        (loadFile env depth held filePath m').map Prod.fst := by
  intro depth
  induction depth with
  | zero => intro held filePath m m'; rfl
  | succ depth ih =>
    intro held filePath m m'
    simp only [loadFile]
    by_cases htxt : QString.endsWith filePath ".txt".toList .CaseInsensitive = true
    · simp only [htxt, if_true]
      exact loadRulesFile_ret (ih (held + 1)) held filePath m m'
    · simp only [Bool.not_eq_true] at htxt
      simp only [htxt, Bool.false_eq_true, if_false, Option.map_some', Option.some.injEq]
      exact loadRuleMap_ret env filePath m m'

theorem loadListed_true_iff {env : Env}
    {callee : QString → AutomappingManager → Option (Bool × AutomappingManager)}
    (hcallee : ∀ p m m', (callee p m).map Prod.fst = (callee p m').map Prod.fst)
    (filePath : QString) (paths : List QString) :
    ∀ (r0 : Bool) (m : AutomappingManager) (ret : Bool) (m1 : AutomappingManager),
      loadListed callee env filePath paths r0 m = some (ret, m1) →
      (ret = true ↔ r0 = true ∧ ∀ p ∈ paths, env.fileExists p = true ∧
        ∀ s, (callee p s).map Prod.fst = some true) := by
  induction paths with
  | nil =>
    intro r0 m ret m1 h
    simp only [loadListed, Option.some.injEq, Prod.mk.injEq] at h
    obtain ⟨rfl, rfl⟩ := h
    simp
  | cons p ps ih =>
    intro r0 m ret m1 h
    simp only [loadListed] at h
    by_cases hex : env.fileExists p = true
    · simp only [hex, if_true] at h
      cases hcall : callee p m with
      | none => simp [hcall] at h
      | some r =>
        obtain ⟨ok, m2⟩ := r
        simp only [hcall] at h
        rw [ih _ _ _ _ h]
        have hok : (∀ s, (callee p s).map Prod.fst = some true) ↔ ok = true := by
          constructor
          · intro hall
            have := hall m
            simpa [hcall] using this
          · intro hok s
            rw [hcallee p s m, hcall, hok]
            rfl
        simp only [List.mem_cons, forall_eq_or_imp, hex, true_and, hok, Bool.and_eq_true]
        tauto
    · simp only [hex, if_false] at h
      rw [ih _ _ _ _ h]
      simp only [Bool.false_eq_true, false_and, List.mem_cons, forall_eq_or_imp, false_iff]
      intro hcon
      exact hex hcon.2.1.1

theorem loadListed_processes {env : Env}
    {callee : QString → AutomappingManager → Option (Bool × AutomappingManager)}
    (hcallee : ∀ p m ok m1, callee p m = some (ok, m1) → Grows env true m ok m1)
    (filePath : QString) (paths : List QString) :
    ∀ (r0 : Bool) (m : AutomappingManager) (ret : Bool) (m1 : AutomappingManager),
      loadListed callee env filePath paths r0 m = some (ret, m1) →
      ∀ p ∈ paths,
        (env.fileExists p = false →
          Effect.logError (msgFileNotFound p filePath) ∈ m1.effects) ∧
        (env.fileExists p = true →
          ∃ ma ok mb, callee p ma = some (ok, mb) ∧
            m.mError <+: ma.mError ∧ mb.mError <+: m1.mError) := by
  induction paths with
  | nil =>
    intro r0 m ret m1 _ p hp
    simp at hp
  | cons q qs ih =>
    intro r0 m ret m1 h p hp
    simp only [loadListed] at h
    by_cases hex : env.fileExists q = true
    · simp only [hex, if_true] at h
      cases hcall : callee q m with
      | none => simp [hcall] at h
      | some r =>
        obtain ⟨ok, m2⟩ := r
        simp only [hcall] at h
        have hstep := hcallee q m ok m2 hcall
        have hrest := grows_loadListed hcallee filePath qs _ _ _ _ h
        rcases List.mem_cons.1 hp with rfl | hp
        · refine ⟨fun hne => ?_, fun _ => ⟨m, ok, m2, hcall, List.prefix_refl _, grows_mError hrest⟩⟩
          rw [hex] at hne
          exact absurd hne (by simp)
        · obtain ⟨h1, h2⟩ := ih _ _ _ _ h p hp
          refine ⟨h1, fun hpe => ?_⟩
          obtain ⟨ma, ok', mb, hc, hpre, hpost⟩ := h2 hpe
          exact ⟨ma, ok', mb, hc, (grows_mError hstep).trans hpre, hpost⟩
    · simp only [hex, if_false] at h
      have hstep := grows_reportError env r0 m (msgFileNotFound q filePath)
      have hrest := grows_loadListed hcallee filePath qs _ _ _ _ h
      rcases List.mem_cons.1 hp with rfl | hp
      · refine ⟨fun _ => ?_, fun hpe => absurd hpe hex⟩
        apply (grows_effects hrest).subset
        simp [reportError]
      · obtain ⟨h1, h2⟩ := ih _ _ _ _ h p hp
        refine ⟨h1, fun hpe => ?_⟩
        obtain ⟨ma, ok', mb, hc, hpre, hpost⟩ := h2 hpe
        exact ⟨ma, ok', mb, hc, (grows_mError hstep).trans hpre, hpost⟩

/-- C5: for a rules file that exists and opens, `loadRulesFile` returns (within
the depth `maxOpenFiles - held` for the loads of the listed files), and its
result is that of going through all listed files in order (`loadListed`, which
goes on after a file that does not exist and after a load that returned false).
`mError` is what it was before with text appended: the errors of every listed
file in order, those of the load for a file that exists and "File not found"
for one that does not.  Every listed file is processed, whatever happened to the files listed before it: one that does not
exist is reported as not found, one that exists is handed to `loadFile`, between
the start and the end of the walk.  The result is true exactly when every
listed file exists and `loadFile` returns true for it. -/
theorem loadRulesFile_continues_after_errors (env : Env) (depth held : Nat)
    (filePath : QString) (m : AutomappingManager) (lines : List QString)
    (hexists : env.fileExists filePath = true)
    (hopen : env.openFile held filePath = some lines)
    (hdepth : env.maxOpenFiles - held ≤ depth) :
    ∃ ret m1,
      loadRulesFile (loadFile env depth (held + 1)) env held filePath m = some (ret, m1) ∧
      loadListed (loadFile env depth (held + 1)) env filePath (listedPaths env filePath lines)
        true { m with mWatcher := m.mWatcher.addPath filePath } = some (ret, m1) ∧
      m.mError <+: m1.mError ∧
      m1.mError = m.mError ++
        ((listedPaths env filePath lines).flatMap fun q =>
          if env.fileExists q then loadErrors env m.mMapDocument depth (held + 1) q
          else [ErrorItem.reported (msgFileNotFound q filePath)]).flatMap ErrorItem.text ∧
      (∀ p ∈ listedPaths env filePath lines,
        (env.fileExists p = false →
          Effect.logError (msgFileNotFound p filePath) ∈ m1.effects) ∧
        (env.fileExists p = true →
          ∃ ma ok mb, loadFile env depth (held + 1) p ma = some (ok, mb) ∧
            m.mError <+: ma.mError ∧ mb.mError <+: m1.mError)) ∧
      (ret = true ↔ ∀ p ∈ listedPaths env filePath lines, env.fileExists p = true ∧
        ∀ s, (loadFile env depth (held + 1) p s).map Prod.fst = some true) := by
  have hlt := (openFile_some hopen).1
  have heq : loadRulesFile (loadFile env depth (held + 1)) env held filePath m =
      loadListed (loadFile env depth (held + 1)) env filePath (listedPaths env filePath lines)
        true { m with mWatcher := m.mWatcher.addPath filePath } := by
    unfold loadRulesFile
    simp only [hexists, hopen, Bool.not_true, Bool.false_eq_true, if_false]
    exact loadRulesLines_eq_loadListed _ env filePath lines true _
  have hsome : ∃ r, loadListed (loadFile env depth (held + 1)) env filePath
      (listedPaths env filePath lines) true
      { m with mWatcher := m.mWatcher.addPath filePath } = some r :=
    loadListed_some filePath (listedPaths env filePath lines)
      (fun q m' => loadFile_some env depth (held + 1) q m' (by omega)) true
      { m with mWatcher := m.mWatcher.addPath filePath }
  obtain ⟨⟨ret, m1⟩, h⟩ := hsome
  have hg := grows_loadRulesFile (grows_loadFile env depth (held + 1)) held filePath m ret m1
    (heq.trans h)
  have hacc := accounts_loadListed
    (fun doc q => loadErrors env doc depth (held + 1) q)
    (accounts_loadFile env depth (held + 1)) filePath (listedPaths env filePath lines) true
    { m with mWatcher := m.mWatcher.addPath filePath } ret m1 h
  refine ⟨ret, m1, heq.trans h, h, grows_mError hg, hacc.1, ?_, ?_⟩
  · intro p hp
    exact loadListed_processes (grows_loadFile env depth (held + 1)) filePath _ true
      { m with mWatcher := m.mWatcher.addPath filePath } ret m1 h p hp
  · rw [loadListed_true_iff (loadFile_ret env depth (held + 1)) filePath _ _ _ _ _ h]
    simp

/-- C5 on `/f/rules.txt` of `faultyEnv`: the first listed file exists and its
load returns false, the second does not exist, and the third is still loaded:
the walk returns false and the manager holds the `AutoMapper` of the third. -/
theorem loadRulesFile_continues_after_errors_witness :
    faultyEnv.fileExists "/f/rules.txt".toList = true ∧
    faultyEnv.openFile 0 "/f/rules.txt".toList = some faultyLines ∧
    faultyEnv.maxOpenFiles - 0 ≤ 16 ∧
    listedPaths faultyEnv "/f/rules.txt".toList faultyLines =
      ["/f/bad.tmx".toList, "/f/gone.tmx".toList, "/f/good.tmx".toList] ∧
    (loadFile faultyEnv 16 1 "/f/bad.tmx".toList AutomappingManager.init).map Prod.fst =
      some false ∧
    loadRulesFile (loadFile faultyEnv 16 1) faultyEnv 0 "/f/rules.txt".toList
      AutomappingManager.init = some (false, faultyWalked) ∧
    faultyWalked.mAutoMappers.map AutoMapper.mRulesMapFileName = ["/f/good.tmx".toList] ∧
    faultyWalked.mError =
      msgOpeningFailed "/f/bad.tmx".toList "unreadable".toList ++ ['\n'] ++
        (msgFileNotFound "/f/gone.tmx".toList "/f/rules.txt".toList ++ ['\n']) ∧
    (∃ ret m1,
      loadRulesFile (loadFile faultyEnv 16 1) faultyEnv 0 "/f/rules.txt".toList
        AutomappingManager.init = some (ret, m1) ∧
      AutomappingManager.init.mError <+: m1.mError ∧
      (∀ p ∈ listedPaths faultyEnv "/f/rules.txt".toList faultyLines,
        (faultyEnv.fileExists p = false →
          Effect.logError (msgFileNotFound p "/f/rules.txt".toList) ∈ m1.effects) ∧
        (faultyEnv.fileExists p = true →
          ∃ ma ok mb, loadFile faultyEnv 16 1 p ma = some (ok, mb) ∧
            AutomappingManager.init.mError <+: ma.mError ∧ mb.mError <+: m1.mError))) := by
  refine ⟨by decide, by decide, by decide, by decide, by decide, by decide, by decide,
    by decide, ?_⟩
  obtain ⟨ret, m1, h, _, hpre, _, hall, _⟩ :=
    loadRulesFile_continues_after_errors faultyEnv 16 0 "/f/rules.txt".toList
      AutomappingManager.init faultyLines (by decide) (by decide) (by decide)
  exact ⟨ret, m1, h, hpre, hall⟩

/-! ## The rules file chosen by `refreshRulesFile` -/

theorem cleanUp_mRulesFile (m : AutomappingManager) : (cleanUp m).mRulesFile = m.mRulesFile := rfl

theorem setRulesFile_mRulesFile (m : AutomappingManager) (rulesFile : QString) :
    (if m.mRulesFile != rulesFile then cleanUp { m with mRulesFile := rulesFile }
      else m).mRulesFile = rulesFile := by
  by_cases h : m.mRulesFile = rulesFile
  · simp [h]
  · simp [h, cleanUp]

theorem setRulesFile_mRulesFileOverride (m : AutomappingManager) (rulesFile : QString) :
    (if m.mRulesFile != rulesFile then cleanUp { m with mRulesFile := rulesFile }
      else m).mRulesFileOverride = m.mRulesFileOverride := by
  by_cases h : m.mRulesFile = rulesFile
  · simp [h]
  · simp [h, cleanUp]

theorem refreshRulesFile_mRulesFile (env : Env) (ruleFileOverride : QString)
    (m : AutomappingManager) :
    (refreshRulesFile env ruleFileOverride m).mRulesFile =
      (match m.mMapDocument with
      | some doc =>
        if QString.isEmpty ruleFileOverride && !QString.isEmpty (env.fileName doc) then
          if !env.fileExists (env.path (env.fileName doc) ++ "/rules.txt".toList) then
            if !QString.isEmpty env.mAutomappingRulesFile then env.mAutomappingRulesFile
            else env.path (env.fileName doc) ++ "/rules.txt".toList
          else env.path (env.fileName doc) ++ "/rules.txt".toList
        else ruleFileOverride
      | none => ruleFileOverride) := by
  unfold refreshRulesFile
  exact setRulesFile_mRulesFile
    { m with mRulesFileOverride := !QString.isEmpty ruleFileOverride } _

theorem refreshRulesFile_of_override (env : Env) (rulesFile : QString) (m : AutomappingManager)
    (h : rulesFile ≠ []) :
    (refreshRulesFile env rulesFile m).mRulesFile = rulesFile ∧
    (refreshRulesFile env rulesFile m).mRulesFileOverride = true := by
  have hne : QString.isEmpty rulesFile = false := by
    simpa [QString.isEmpty, List.isEmpty_iff] using h
  constructor
  · rw [refreshRulesFile_mRulesFile]
    cases m.mMapDocument <;> simp [hne]
  · unfold refreshRulesFile
    refine (setRulesFile_mRulesFileOverride
      { m with mRulesFileOverride := !QString.isEmpty rulesFile } _).trans ?_
    simp [hne]

/-! ## C6: the rules file of a saved map -/

/-- C6: for a saved map (the file name of the document is not empty) and no
override, `refreshRulesFile`, and `setMapDocument` for that document, set the
rules file to `rules.txt` in the directory of the map when that file exists;
when it does not exist they set it to the rules file of the project if the
project names one (and to the path of the missing `rules.txt` if not). -/
theorem refreshRulesFile_for_saved_map (env : Env) (m : AutomappingManager) (doc : MapDocument)
    (hdoc : m.mMapDocument = some doc) (hsaved : env.fileName doc ≠ []) :
    (refreshRulesFile env [] m).mRulesFile =
      (if env.fileExists (env.path (env.fileName doc) ++ "/rules.txt".toList) = true then
        env.path (env.fileName doc) ++ "/rules.txt".toList
      else if env.mAutomappingRulesFile ≠ [] then env.mAutomappingRulesFile
      else env.path (env.fileName doc) ++ "/rules.txt".toList) ∧
    (setMapDocument env (some doc) [] m).mRulesFile = (refreshRulesFile env [] m).mRulesFile := by
  have hne : QString.isEmpty (env.fileName doc) = false := by
    simpa [QString.isEmpty, List.isEmpty_iff] using hsaved
  have hres : ∀ m' : AutomappingManager, m'.mMapDocument = some doc →
      (refreshRulesFile env [] m').mRulesFile =
        (if env.fileExists (env.path (env.fileName doc) ++ "/rules.txt".toList) = true then
          env.path (env.fileName doc) ++ "/rules.txt".toList
        else if env.mAutomappingRulesFile ≠ [] then env.mAutomappingRulesFile
        else env.path (env.fileName doc) ++ "/rules.txt".toList) := by
    intro m' hm'
    rw [refreshRulesFile_mRulesFile, hm']
    dsimp only
    generalize env.path (env.fileName doc) ++ "/rules.txt".toList = r
    cases hex : env.fileExists r <;> cases hp : env.mAutomappingRulesFile <;>
      simp [hsaved, QString.isEmpty]
  refine ⟨hres m hdoc, ?_⟩
  rw [hres m hdoc]
  unfold setMapDocument
  simp only [hdoc]
  exact hres _ (by simp [hdoc])

/-- C6 on the sample file system, where `/m/rules.txt` exists next to the map
`/m/map.tmx`. -/
theorem refreshRulesFile_for_saved_map_witness :
    sampleManager.mMapDocument = some { addr := 1 } ∧
    sampleEnv.fileName { addr := 1 } ≠ [] ∧
    (refreshRulesFile sampleEnv [] sampleManager).mRulesFile = "/m/rules.txt".toList :=
  ⟨rfl, by decide,
    (refreshRulesFile_for_saved_map sampleEnv sampleManager { addr := 1 } rfl (by decide)).1⟩

/-! ## C7: the rules file of a map that is not saved -/

/-- C7 (the code at the failing input): the document has an empty file name,
no override is passed and the project names the rules file
`/project/rules.txt`; `refreshRulesFile` and `setMapDocument` leave `mRulesFile`
empty instead of taking the rules file of the project. -/
theorem refreshRulesFile_ignores_project_when_unsaved :
    unsavedEnv.fileName { addr := 1 } = [] ∧
    unsavedEnv.mAutomappingRulesFile = "/project/rules.txt".toList ∧
    (refreshRulesFile unsavedEnv [] sampleManager).mRulesFile = [] ∧
    (setMapDocument unsavedEnv (some { addr := 1 }) [] AutomappingManager.init).mRulesFile = [] := by
  decide

/-! ## C8: the override -/

/-- C8: a rules file that is not empty, passed to `setMapDocument` or to
`refreshRulesFile`, becomes `mRulesFile` whatever the document, its file name,
the files that exist and the project are, and puts the override in effect; and
while the override is in effect `onMapFileNameChanged` leaves the manager as it
is, so in particular `mRulesFile`, `mLoaded` and `mAutoMappers`. -/
theorem override_sets_rules_file (env : Env) (mapDocument : Option MapDocument)
    (rulesFile : QString) (m : AutomappingManager) (h : rulesFile ≠ []) :
    (refreshRulesFile env rulesFile m).mRulesFile = rulesFile ∧
    (refreshRulesFile env rulesFile m).mRulesFileOverride = true ∧
    (setMapDocument env mapDocument rulesFile m).mRulesFile = rulesFile ∧
    (setMapDocument env mapDocument rulesFile m).mRulesFileOverride = true ∧
    (∀ (env1 : Env) (m1 : AutomappingManager), m1.mRulesFileOverride = true →
      onMapFileNameChanged env1 m1 = m1) := by
  refine ⟨(refreshRulesFile_of_override env rulesFile m h).1,
    (refreshRulesFile_of_override env rulesFile m h).2,
    (refreshRulesFile_of_override env rulesFile _ h).1,
    (refreshRulesFile_of_override env rulesFile _ h).2, ?_⟩
  intro env1 m1 h1
  unfold onMapFileNameChanged
  simp [h1]

/-- C8 on the sample file system: the override `/o/other.txt` wins over the
`rules.txt` next to the map and over the project, and a change of the file name
of the map changes nothing. -/
theorem override_sets_rules_file_witness :
    "/o/other.txt".toList ≠ [] ∧
    (setMapDocument sampleEnv (some { addr := 1 }) "/o/other.txt".toList
      AutomappingManager.init).mRulesFile = "/o/other.txt".toList ∧
    onMapFileNameChanged lonelyEnv
      (setMapDocument sampleEnv (some { addr := 1 }) "/o/other.txt".toList
        AutomappingManager.init) =
      setMapDocument sampleEnv (some { addr := 1 }) "/o/other.txt".toList
        AutomappingManager.init :=
  ⟨by decide,
    (override_sets_rules_file sampleEnv (some { addr := 1 }) "/o/other.txt".toList
      AutomappingManager.init (by decide)).2.2.1,
    (override_sets_rules_file sampleEnv (some { addr := 1 }) "/o/other.txt".toList
      AutomappingManager.init (by decide)).2.2.2.2 lonelyEnv _
      (override_sets_rules_file sampleEnv (some { addr := 1 }) "/o/other.txt".toList
        AutomappingManager.init (by decide)).2.2.2.1⟩

/-! ## C9: the files a load registers with the watcher -/

theorem foldl_addPath_append (w : QFileSystemWatcher) (l1 l2 : List QString) :
    (l1 ++ l2).foldl QFileSystemWatcher.addPath w =
      l2.foldl QFileSystemWatcher.addPath (l1.foldl QFileSystemWatcher.addPath w) :=
  List.foldl_append _ _ _ _

theorem addPath_files_mem (w : QFileSystemWatcher) (p f : QString) :
    f ∈ (w.addPath p).files ↔ f ∈ w.files ∨ f = p := by
  unfold QFileSystemWatcher.addPath
  by_cases h : w.files.contains p = true
  · simp only [h, if_true]
    constructor
    · exact Or.inl
    · rintro (hf | rfl)
      · exact hf
      · simpa using h
  · simp only [h]
    simp

theorem foldl_addPath_files_mem (l : List QString) :
    ∀ (w : QFileSystemWatcher) (f : QString),
      f ∈ (l.foldl QFileSystemWatcher.addPath w).files ↔ f ∈ w.files ∨ f ∈ l := by
  induction l with
  | nil => intro w f; simp
  | cons p ps ih =>
    intro w f
    simp only [List.foldl_cons, ih, addPath_files_mem, List.mem_cons]
    tauto

theorem loadListed_watcher {env : Env}
    {callee : QString → AutomappingManager → Option (Bool × AutomappingManager)}
    (files : Option MapDocument → QString → List QString)
    (hgrows : ∀ p m ok m1, callee p m = some (ok, m1) → Grows env true m ok m1)
    (hcallee : ∀ p m ok m1, callee p m = some (ok, m1) →
      m1.mWatcher = (files m.mMapDocument p).foldl QFileSystemWatcher.addPath m.mWatcher)
    (filePath : QString) (paths : List QString) :
    ∀ (r0 : Bool) (m : AutomappingManager) (ret : Bool) (m1 : AutomappingManager),
      loadListed callee env filePath paths r0 m = some (ret, m1) →
      m1.mWatcher =
        ((paths.filter env.fileExists).flatMap (files m.mMapDocument)).foldl
          QFileSystemWatcher.addPath m.mWatcher := by
  induction paths with
  | nil =>
    intro r0 m ret m1 h
    simp only [loadListed, Option.some.injEq, Prod.mk.injEq] at h
    obtain ⟨_, rfl⟩ := h
    rfl
  | cons q qs ih =>
    intro r0 m ret m1 h
    simp only [loadListed] at h
    by_cases hex : env.fileExists q = true
    · simp only [hex, if_true] at h
      cases hcall : callee q m with
      | none => simp [hcall] at h
      | some r =>
        obtain ⟨ok, m2⟩ := r
        simp only [hcall] at h
        have hdoc : m2.mMapDocument = m.mMapDocument := by
          obtain ⟨_, _, _, _, _, _, _, _, _, hd⟩ := hgrows q m ok m2 hcall
          exact hd
        rw [ih _ _ _ _ h, hdoc, hcallee q m ok m2 hcall]
        simp only [List.filter_cons, hex, if_true, List.flatMap_cons]
        rw [foldl_addPath_append]
    · simp only [hex, if_false] at h
      rw [ih _ _ _ _ h]
      simp only [List.filter_cons, hex, if_false]
      rfl

/-- The watcher after a load: the files the load read and kept are added, in
order, to the files watched before. -/
theorem loadFile_watcher (env : Env) :
    ∀ (depth held : Nat) (filePath : QString) (m : AutomappingManager) (ret : Bool)
      (m1 : AutomappingManager),
      loadFile env depth held filePath m = some (ret, m1) →
      m1.mWatcher =
        (filesRead env
          (fun q rules => QString.isEmpty (AutoMapper.new env m.mMapDocument rules q).errorString)
          depth held filePath).foldl QFileSystemWatcher.addPath m.mWatcher := by
  intro depth
  induction depth with
  | zero =>
    intro held filePath m ret m1 h
    simp [loadFile] at h
  | succ depth ih =>
    intro held filePath m ret m1 h
    simp only [loadFile] at h
    simp only [filesRead]
    by_cases htxt : QString.endsWith filePath ".txt".toList .CaseInsensitive = true
    · simp only [htxt, if_true] at h ⊢
      unfold loadRulesFile at h
      by_cases hex : env.fileExists filePath = true
      · simp only [hex, Bool.not_true, Bool.false_eq_true, if_false, if_true] at h ⊢
        cases hopen : env.openFile held filePath with
        | none =>
          simp only [hopen, Option.some.injEq, Prod.mk.injEq] at h
          obtain ⟨_, rfl⟩ := h
          rfl
        | some lines =>
          simp only [hopen] at h
          rw [loadRulesLines_eq_loadListed] at h
          have := loadListed_watcher
            (fun doc p => filesRead env
              (fun q rules => QString.isEmpty (AutoMapper.new env doc rules q).errorString)
              depth (held + 1) p)
            (grows_loadFile env depth (held + 1)) (ih (held + 1)) filePath _ true
            { m with mWatcher := m.mWatcher.addPath filePath } ret m1 h
          rw [this]
          rfl
      · simp only [Bool.not_eq_true] at hex
        simp only [hex, Bool.not_false, if_true, Option.some.injEq, Prod.mk.injEq,
          Bool.false_eq_true, if_false] at h ⊢
        obtain ⟨_, rfl⟩ := h
        rfl
    · simp only [Bool.not_eq_true] at htxt
      simp only [htxt, Bool.false_eq_true, if_false, Option.some.injEq] at h ⊢
      cases hread : env.readMap filePath with
      | error e =>
        rw [loadRuleMap_of_unreadable env filePath m e hread] at h
        simp only [Prod.mk.injEq] at h
        obtain ⟨_, rfl⟩ := h
        rfl
      | ok rules =>
        by_cases herr : (AutoMapper.new env m.mMapDocument rules filePath).errorString = []
        · rw [loadRuleMap_of_setup env filePath m rules hread herr] at h
          simp only [Prod.mk.injEq] at h
          obtain ⟨_, rfl⟩ := h
          simp [herr, QString.isEmpty]
        · rw [loadRuleMap_of_setup_error env filePath m rules hread herr] at h
          simp only [Prod.mk.injEq] at h
          obtain ⟨_, rfl⟩ := h
          have hne : QString.isEmpty
              (AutoMapper.new env m.mMapDocument rules filePath).errorString = false := by
            simpa [QString.isEmpty, List.isEmpty_iff] using herr
          simp [hne]

/-- C9 (amended): `loadFile` returns (within the depth `maxOpenFiles - held +
1`), and the files watched after it are exactly the files watched before and
the files the load read and kept: every rules file it opened, and every rule map
that `readMap` read and whose `AutoMapper` was set up without an error.  The
load registers nothing else: for a rule map that cannot be read, or whose
`AutoMapper` reports an error, `loadFile` leaves the watcher as it was. -/
theorem loadFile_watches_files_kept (env : Env) (depth held : Nat) (filePath : QString)
    (m : AutomappingManager) (hdepth : env.maxOpenFiles - held + 1 ≤ depth) :
    ∃ ret m1,
      loadFile env depth held filePath m = some (ret, m1) ∧
      m1.mWatcher =
        (filesRead env
          (fun q rules => QString.isEmpty (AutoMapper.new env m.mMapDocument rules q).errorString)
          depth held filePath).foldl QFileSystemWatcher.addPath m.mWatcher ∧
      (∀ f, f ∈ m1.mWatcher.files ↔
        f ∈ m.mWatcher.files ∨
        f ∈ filesRead env
          (fun q rules => QString.isEmpty (AutoMapper.new env m.mMapDocument rules q).errorString)
          depth held filePath) ∧
      (QString.endsWith filePath ".txt".toList .CaseInsensitive = false →
        (∀ rules, env.readMap filePath = .ok rules →
          (AutoMapper.new env m.mMapDocument rules filePath).errorString ≠ []) →
        m1.mWatcher = m.mWatcher) := by
  obtain ⟨⟨ret, m1⟩, h⟩ := loadFile_some env depth held filePath m hdepth
  have hw := loadFile_watcher env depth held filePath m ret m1 h
  refine ⟨ret, m1, h, hw, fun f => ?_, fun htxt hbad => ?_⟩
  · rw [hw]
    exact foldl_addPath_files_mem _ _ _
  · obtain ⟨d, rfl⟩ : ∃ d, depth = d + 1 := ⟨depth - 1, by omega⟩
    rw [hw]
    simp only [filesRead, htxt, Bool.false_eq_true, if_false]
    cases hread : env.readMap filePath with
    | error e => rfl
    | ok rules =>
      have hne : QString.isEmpty
          (AutoMapper.new env m.mMapDocument rules filePath).errorString = false := by
        simpa [QString.isEmpty, List.isEmpty_iff] using hbad rules hread
      simp [hne]

/-- The amended C9 on `/m/rules.txt` of the sample file system: the files
watched after the load are the two rules files and the rule map `/m/a.tmx`;
the rule map `/m/sub/b.tmx`, whose `AutoMapper` reports an error, is not among
them. -/
theorem loadFile_watches_files_kept_witness :
    sampleEnv.maxOpenFiles - 0 + 1 ≤ 17 ∧
    filesRead sampleEnv
        (fun q rules => QString.isEmpty (AutoMapper.new sampleEnv none rules q).errorString)
        17 0 "/m/rules.txt".toList =
      ["/m/rules.txt".toList, "/m/a.tmx".toList, "/m/sub/more.TXT".toList] ∧
    ∃ ret m1,
      loadFile sampleEnv 17 0 "/m/rules.txt".toList AutomappingManager.init = some (ret, m1) ∧
      ∀ f, f ∈ m1.mWatcher.files ↔
        f ∈ AutomappingManager.init.mWatcher.files ∨
        f ∈ filesRead sampleEnv
          (fun q rules => QString.isEmpty (AutoMapper.new sampleEnv none rules q).errorString)
          17 0 "/m/rules.txt".toList := by
  refine ⟨by decide, by decide, ?_⟩
  obtain ⟨ret, m1, h, _, hmem, _⟩ :=
    loadFile_watches_files_kept sampleEnv 17 0 "/m/rules.txt".toList AutomappingManager.init
      (by decide)
  exact ⟨ret, m1, h, hmem⟩

/-- C9 as stated fails: loading `/m/rules.txt` reads the rule map
`/m/sub/b.tmx`, and that file is not watched when `loadFile` has returned. -/
theorem loadFile_leaves_read_rule_map_unwatched :
    "/m/sub/b.tmx".toList ∈ filesRead sampleEnv (fun _ _ => true) 3 0 "/m/rules.txt".toList ∧
    (loadFile sampleEnv 3 0 "/m/rules.txt".toList AutomappingManager.init).map
        (fun r => r.2.mWatcher.files) =
      some ["/m/rules.txt".toList, "/m/a.tmx".toList, "/m/sub/more.TXT".toList] ∧
    "/m/sub/b.tmx".toList ∉
      ["/m/rules.txt".toList, "/m/a.tmx".toList, "/m/sub/more.TXT".toList] := by
  decide

/-! ## C10: a change of a watched file -/

theorem removePaths_files (w : QFileSystemWatcher) : (w.removePaths w.files).files = [] := by
  unfold QFileSystemWatcher.removePaths
  simp [List.filter_eq_nil_iff]

theorem cleanUp_files (m : AutomappingManager) : (cleanUp m).mWatcher.files = [] := by
  unfold cleanUp
  by_cases h : m.mWatcher.files = []
  · simp [h]
  · have hne : m.mWatcher.files.isEmpty = false := by simpa [List.isEmpty_iff] using h
    simp only [hne, Bool.not_false, if_true]
    exact removePaths_files _

/-- C10: after `onFileChanged` the manager holds no `AutoMapper`, `mLoaded` is
false and no file is watched, while `mRulesFile` and `mMapDocument` are what
they were.  So the next `autoMapInternal` with a document and a rules file that
is not empty first calls `loadFile` on `mRulesFile`, on the manager with no
`AutoMapper` and with the record of calls as it was; only when that returns
true are rules applied, and when it returns false `errorsOccurred` is emitted
and nothing is applied. -/
theorem onFileChanged_discards_loaded_rules (m : AutomappingManager) :
    (onFileChanged m).mAutoMappers = [] ∧
    (onFileChanged m).mLoaded = false ∧
    (onFileChanged m).mWatcher.files = [] ∧
    (onFileChanged m).mRulesFile = m.mRulesFile ∧
    (onFileChanged m).mMapDocument = m.mMapDocument ∧
    (onFileChanged m).effects = m.effects ∧
    ∀ (env : Env) (depth : Nat) (region : QRegion) (touchedLayer : Option TileLayer)
      (doc : MapDocument), m.mMapDocument = some doc → m.mRulesFile ≠ [] →
      autoMapInternal env depth region touchedLayer (onFileChanged m) =
        match loadFile env depth 0 m.mRulesFile
            { onFileChanged m with mError := [], mWarning := [] } with
        | none => none
        | some (true, m1) =>
          some (applyLoaded env doc region touchedLayer { m1 with mLoaded := true })
        | some (false, m1) =>
          some { m1 with
            effects := m1.effects ++ [Effect.errorsOccurred touchedLayer.isSome] } := by
  refine ⟨rfl, rfl, cleanUp_files m, rfl, rfl, rfl, ?_⟩
  intro env depth region touchedLayer doc hdoc hrules
  have hne : QString.isEmpty m.mRulesFile = false := by
    simpa [QString.isEmpty, List.isEmpty_iff] using hrules
  unfold autoMapInternal
  simp only [onFileChanged, cleanUp, hdoc, hne, Bool.not_false, if_true, Bool.false_eq_true,
    if_false]

/-- C10 on the sample file system, for a manager that has loaded
`/m/rules.txt`. -/
theorem onFileChanged_discards_loaded_rules_witness :
    sampleLoaded.mMapDocument = some { addr := 1 } ∧
    sampleLoaded.mRulesFile ≠ [] ∧
    sampleLoaded.mWatcher.files ≠ [] ∧
    (onFileChanged sampleLoaded).mWatcher.files = [] ∧
    autoMapInternal sampleEnv 3 { rects := [] } none (onFileChanged sampleLoaded) =
      match loadFile sampleEnv 3 0 sampleLoaded.mRulesFile
          { onFileChanged sampleLoaded with mError := [], mWarning := [] } with
      | none => none
      | some (true, m1) =>
        some (applyLoaded sampleEnv { addr := 1 } { rects := [] } none { m1 with mLoaded := true })
      | some (false, m1) =>
        some { m1 with effects := m1.effects ++ [Effect.errorsOccurred false] } :=
  ⟨by decide, by decide, by decide,
    (onFileChanged_discards_loaded_rules sampleLoaded).2.2.1,
    (onFileChanged_discards_loaded_rules sampleLoaded).2.2.2.2.2.2 sampleEnv 3 { rects := [] }
      none { addr := 1 } (by decide) (by decide)⟩

/-! ## The application of the loaded rules -/

theorem passedAutoMappers_none (l : List AutoMapper) : passedAutoMappers none l = l := by
  unfold passedAutoMappers
  simp

theorem passedAutoMappers_some (layer : TileLayer) (l : List AutoMapper) :
    passedAutoMappers (some layer) l = l.filter fun a => a.ruleLayerNameUsed layer.name := rfl

theorem collect_frame (after : List AutoMapper) :
    ∀ m : AutomappingManager,
      (after.foldl
        (fun (m : AutomappingManager) (autoMapper : AutoMapper) =>
          { m with
            mWarning := m.mWarning ++ autoMapper.warningString
            mError := m.mError ++ autoMapper.errorString })
        m).effects = m.effects ∧
      (after.foldl
        (fun (m : AutomappingManager) (autoMapper : AutoMapper) =>
          { m with
            mWarning := m.mWarning ++ autoMapper.warningString
            mError := m.mError ++ autoMapper.errorString })
        m).mAutoMappers = m.mAutoMappers ∧
      (after.foldl
        (fun (m : AutomappingManager) (autoMapper : AutoMapper) =>
          { m with
            mWarning := m.mWarning ++ autoMapper.warningString
            mError := m.mError ++ autoMapper.errorString })
        m).mLoaded = m.mLoaded := by
  induction after with
  | nil => intro m; exact ⟨rfl, rfl, rfl⟩
  | cons a rest ih =>
    intro m
    simp only [List.foldl_cons]
    exact ih _

/-- What `applyLoaded` adds to the record of calls: one undo macro when the
selection is not empty, then the signals; the automappers and `mLoaded` stay. -/
theorem applyLoaded_effects (env : Env) (doc : MapDocument) (region : QRegion)
    (touchedLayer : Option TileLayer) (m : AutomappingManager) :
    (∃ post,
      (applyLoaded env doc region touchedLayer m).effects =
        m.effects ++
          (if passedAutoMappers touchedLayer m.mAutoMappers ≠ [] then
            macroCalls doc region (passedAutoMappers touchedLayer m.mAutoMappers)
          else []) ++ post ∧
      ∀ e ∈ post, e = Effect.errorsOccurred touchedLayer.isSome ∨
        e = Effect.warningsOccurred touchedLayer.isSome) ∧
    (applyLoaded env doc region touchedLayer m).mAutoMappers = m.mAutoMappers ∧
    (applyLoaded env doc region touchedLayer m).mLoaded = m.mLoaded := by
  unfold applyLoaded
  simp only []
  generalize hpassed : passedAutoMappers touchedLayer m.mAutoMappers = passed
  generalize hafter : (if (!passed.isEmpty) = true then env.applied doc passed region
    else passed) = after
  generalize hm0 : (if (!passed.isEmpty) = true then
      ({ m with effects := m.effects ++
          [Effect.beginMacro doc msgApply,
           Effect.push doc { mapDocument := doc, autoMappers := passed, region := region },
           Effect.endMacro doc] } : AutomappingManager)
    else m) = m0
  have hm0e : m0.effects = m.effects ++ (if passed ≠ [] then macroCalls doc region passed
      else []) ∧ m0.mAutoMappers = m.mAutoMappers ∧ m0.mLoaded = m.mLoaded := by
    rw [← hm0]
    cases passed with
    | nil => simp
    | cons a rest => simp [macroCalls]
  obtain ⟨hce, hca, hcl⟩ := collect_frame after m0
  generalize hm2 : (after.foldl
        (fun (m : AutomappingManager) (autoMapper : AutoMapper) =>
          { m with
            mWarning := m.mWarning ++ autoMapper.warningString
            mError := m.mError ++ autoMapper.errorString })
        m0) = m2 at hce hca hcl
  rw [hm0e.1] at hce
  rw [hm0e.2.1] at hca
  rw [hm0e.2.2] at hcl
  by_cases hw : QString.isEmpty m2.mWarning = true
  · by_cases he : QString.isEmpty m2.mError = true
    · simp only [hw, he, Bool.not_true, Bool.false_eq_true, if_false]
      exact ⟨⟨[], by simpa using hce, by simp⟩, hca, hcl⟩
    · simp only [Bool.not_eq_true] at he
      simp only [hw, he, Bool.not_true, Bool.not_false, Bool.false_eq_true, if_false, if_true]
      exact ⟨⟨[Effect.errorsOccurred touchedLayer.isSome], by rw [hce], by simp⟩, hca, hcl⟩
  · simp only [Bool.not_eq_true] at hw
    by_cases he : QString.isEmpty m2.mError = true
    · simp only [hw, he, Bool.not_true, Bool.not_false, Bool.false_eq_true, if_false, if_true]
      exact ⟨⟨[Effect.warningsOccurred touchedLayer.isSome], by rw [hce], by simp⟩, hca, hcl⟩
    · simp only [Bool.not_eq_true] at he
      simp only [hw, he, Bool.not_false, if_true]
      refine ⟨⟨[Effect.warningsOccurred touchedLayer.isSome,
        Effect.errorsOccurred touchedLayer.isSome], ?_, by simp⟩, hca, hcl⟩
      rw [hce]
      simp

theorem loadRuleMap_mLoaded (env : Env) (filePath : QString) (m : AutomappingManager) :
    (loadRuleMap env filePath m).2.mLoaded = m.mLoaded := by
  unfold loadRuleMap
  cases env.readMap filePath with
  | error e => rfl
  | ok rules =>
    simp only []
    split <;> rfl

theorem loadListed_mLoaded {env : Env}
    {callee : QString → AutomappingManager → Option (Bool × AutomappingManager)}
    (hcallee : ∀ p m ok m1, callee p m = some (ok, m1) → m1.mLoaded = m.mLoaded)
    (filePath : QString) (paths : List QString) :
    ∀ (r0 : Bool) (m : AutomappingManager) (ret : Bool) (m1 : AutomappingManager),
      loadListed callee env filePath paths r0 m = some (ret, m1) → m1.mLoaded = m.mLoaded := by
  induction paths with
  | nil =>
    intro r0 m ret m1 h
    simp only [loadListed, Option.some.injEq, Prod.mk.injEq] at h
    rw [← h.2]
  | cons p ps ih =>
    intro r0 m ret m1 h
    simp only [loadListed] at h
    by_cases hex : env.fileExists p = true
    · simp only [hex, if_true] at h
      cases hcall : callee p m with
      | none => simp [hcall] at h
      | some r =>
        obtain ⟨ok, m2⟩ := r
        simp only [hcall] at h
        rw [ih _ _ _ _ h, hcallee p m ok m2 hcall]
    · simp only [hex, if_false] at h
      rw [ih _ _ _ _ h]
      rfl

/-- A load leaves `mLoaded` as it is. -/
theorem loadFile_mLoaded (env : Env) :
    ∀ (depth held : Nat) (filePath : QString) (m : AutomappingManager) (ret : Bool)
      (m1 : AutomappingManager),
      loadFile env depth held filePath m = some (ret, m1) → m1.mLoaded = m.mLoaded := by
  intro depth
  induction depth with
  | zero =>
    intro held filePath m ret m1 h
    simp [loadFile] at h
  | succ depth ih =>
    intro held filePath m ret m1 h
    simp only [loadFile] at h
    by_cases htxt : QString.endsWith filePath ".txt".toList .CaseInsensitive = true
    · simp only [htxt, if_true] at h
      unfold loadRulesFile at h
      by_cases hex : env.fileExists filePath = true
      · simp only [hex, Bool.not_true, Bool.false_eq_true, if_false] at h
        cases hopen : env.openFile held filePath with
        | none =>
          simp only [hopen, Option.some.injEq, Prod.mk.injEq] at h
          rw [← h.2]
          rfl
        | some lines =>
          simp only [hopen] at h
          rw [loadRulesLines_eq_loadListed] at h
          rw [loadListed_mLoaded (ih (held + 1)) filePath _ _ _ _ _ h]
      · simp only [Bool.not_eq_true] at hex
        simp only [hex, Bool.not_false, if_true, Option.some.injEq, Prod.mk.injEq] at h
        rw [← h.2]
        rfl
    · simp only [Bool.not_eq_true] at htxt
      simp only [htxt, Bool.false_eq_true, if_false, Option.some.injEq] at h
      have := loadRuleMap_mLoaded env filePath m
      rw [h] at this
      exact this

/-! ## The four ways through `autoMapInternal` -/

theorem autoMapInternal_of_no_doc (env : Env) (depth : Nat) (region : QRegion)
    (touchedLayer : Option TileLayer) (m : AutomappingManager) (hdoc : m.mMapDocument = none) :
    autoMapInternal env depth region touchedLayer m =
      some { m with mError := [], mWarning := [] } := by
  unfold autoMapInternal
  simp only [hdoc]

theorem autoMapInternal_of_loaded (env : Env) (depth : Nat) (region : QRegion)
    (touchedLayer : Option TileLayer) (m : AutomappingManager) (doc : MapDocument)
    (hdoc : m.mMapDocument = some doc) (hl : m.mLoaded = true) :
    autoMapInternal env depth region touchedLayer m =
      some (applyLoaded env doc region touchedLayer { m with mError := [], mWarning := [] }) := by
  unfold autoMapInternal
  simp only [hdoc, hl, Bool.not_true, Bool.false_eq_true, if_false]

theorem autoMapInternal_of_no_rules (env : Env) (depth : Nat) (region : QRegion)
    (touchedLayer : Option TileLayer) (m : AutomappingManager) (doc : MapDocument)
    (hdoc : m.mMapDocument = some doc) (hl : m.mLoaded = false) (hr : m.mRulesFile = []) :
    autoMapInternal env depth region touchedLayer m =
      some { m with
        mError := msgNoRules
        mWarning := []
        effects := m.effects ++ [Effect.errorsOccurred touchedLayer.isSome] } := by
  unfold autoMapInternal
  simp only [hdoc, hl, hr, QString.isEmpty, List.isEmpty_nil, Bool.not_false, if_true]

theorem autoMapInternal_of_load_none (env : Env) (depth : Nat) (region : QRegion)
    (touchedLayer : Option TileLayer) (m : AutomappingManager) (doc : MapDocument)
    (hdoc : m.mMapDocument = some doc) (hl : m.mLoaded = false) (hr : m.mRulesFile ≠ [])
    (hload : loadFile env depth 0 m.mRulesFile { m with mError := [], mWarning := [] } = none) :
    autoMapInternal env depth region touchedLayer m = none := by
  have hne : QString.isEmpty m.mRulesFile = false := by
    simpa [QString.isEmpty, List.isEmpty_iff] using hr
  simp only [hdoc, hl] at hload
  unfold autoMapInternal
  simp only [hdoc, hl, hne, Bool.not_false, if_true, Bool.false_eq_true, if_false, hload]

theorem autoMapInternal_of_load_true (env : Env) (depth : Nat) (region : QRegion)
    (touchedLayer : Option TileLayer) (m : AutomappingManager) (doc : MapDocument)
    (hdoc : m.mMapDocument = some doc) (hl : m.mLoaded = false) (hr : m.mRulesFile ≠ [])
    (m2 : AutomappingManager)
    (hload : loadFile env depth 0 m.mRulesFile { m with mError := [], mWarning := [] } =
      some (true, m2)) :
    autoMapInternal env depth region touchedLayer m =
      some (applyLoaded env doc region touchedLayer { m2 with mLoaded := true }) := by
  have hne : QString.isEmpty m.mRulesFile = false := by
    simpa [QString.isEmpty, List.isEmpty_iff] using hr
  simp only [hdoc, hl] at hload
  unfold autoMapInternal
  simp only [hdoc, hl, hne, Bool.not_false, if_true, Bool.false_eq_true, if_false, hload]

theorem autoMapInternal_of_load_false (env : Env) (depth : Nat) (region : QRegion)
    (touchedLayer : Option TileLayer) (m : AutomappingManager) (doc : MapDocument)
    (hdoc : m.mMapDocument = some doc) (hl : m.mLoaded = false) (hr : m.mRulesFile ≠ [])
    (m2 : AutomappingManager)
    (hload : loadFile env depth 0 m.mRulesFile { m with mError := [], mWarning := [] } =
      some (false, m2)) :
    autoMapInternal env depth region touchedLayer m =
      some { m2 with
        effects := m2.effects ++ [Effect.errorsOccurred touchedLayer.isSome] } := by
  have hne : QString.isEmpty m.mRulesFile = false := by
    simpa [QString.isEmpty, List.isEmpty_iff] using hr
  simp only [hdoc, hl] at hload
  unfold autoMapInternal
  simp only [hdoc, hl, hne, Bool.not_false, if_true, Bool.false_eq_true, if_false, hload]

/-! ## C11: one undo macro -/

/-- C11: `autoMapInternal` returns (the depth `maxOpenFiles + 1` is enough for
its call of `loadFile`).  The automappers selected from a list are the whole
list when there is no touched layer, and otherwise those for which
`ruleLayerNameUsed` holds for the name of the touched layer, in list order.
Without a document nothing is called and only `mError` and `mWarning` are
cleared.  With a document and the rules loaded, `mAutoMappers` stays as it was
and the calls added are, when the selection from `mAutoMappers` is not empty,
exactly one undo macro on the undo stack of the document (`beginMacro`, the push
of one `AutoMapperWrapper` holding that selection, `endMacro`), then signals;
when the selection is empty only signals are added.  With a document, the rules
not loaded and no rules file, only `errorsOccurred` is added.  With a document,
the rules not loaded and a rules file, `loadFile` is run on the rules file: the
calls it adds are the `ERROR` calls of the load, the automappers held are those
it leaves, and then, when it returned false, only `errorsOccurred` is added,
and when it returned true, the one undo macro for the selection from the
automappers it left (when that is not empty) and signals are added. -/
theorem autoMapInternal_one_undo_group (env : Env) (depth : Nat) (region : QRegion)
    (touchedLayer : Option TileLayer) (m : AutomappingManager)
    (hdepth : env.maxOpenFiles + 1 ≤ depth) :
    ∃ m1,
      autoMapInternal env depth region touchedLayer m = some m1 ∧
      (∀ l : List AutoMapper,
        passedAutoMappers none l = l ∧
        (∀ layer, passedAutoMappers (some layer) l =
          l.filter fun a => a.ruleLayerNameUsed layer.name) ∧
        (passedAutoMappers touchedLayer l).Sublist l) ∧
      (m.mMapDocument = none → m1 = { m with mError := [], mWarning := [] }) ∧
      (∀ doc, m.mMapDocument = some doc →
        (m.mLoaded = true →
          m1.mAutoMappers = m.mAutoMappers ∧ m1.mLoaded = true ∧
          ∃ post,
            m1.effects = m.effects ++
              (if passedAutoMappers touchedLayer m.mAutoMappers ≠ [] then
                macroCalls doc region (passedAutoMappers touchedLayer m.mAutoMappers)
              else []) ++ post ∧
            ∀ e ∈ post, e = Effect.errorsOccurred touchedLayer.isSome ∨
              e = Effect.warningsOccurred touchedLayer.isSome) ∧
        (m.mLoaded = false → m.mRulesFile = [] →
          m1.mAutoMappers = m.mAutoMappers ∧ m1.mLoaded = false ∧
          m1.effects = m.effects ++ [Effect.errorsOccurred touchedLayer.isSome]) ∧
        (m.mLoaded = false → m.mRulesFile ≠ [] →
          ∃ ok m2,
            loadFile env depth 0 m.mRulesFile { m with mError := [], mWarning := [] } =
              some (ok, m2) ∧
            m2.effects = m.effects ++
              (loadErrors env (some doc) depth 0 m.mRulesFile).flatMap ErrorItem.logged ∧
            m1.mAutoMappers = m2.mAutoMappers ∧
            (ok = false →
              m1.mLoaded = false ∧
              m1.effects = m2.effects ++ [Effect.errorsOccurred touchedLayer.isSome]) ∧
            (ok = true →
              m1.mLoaded = true ∧
              ∃ post,
                m1.effects = m2.effects ++
                  (if passedAutoMappers touchedLayer m2.mAutoMappers ≠ [] then
                    macroCalls doc region (passedAutoMappers touchedLayer m2.mAutoMappers)
                  else []) ++ post ∧
                ∀ e ∈ post, e = Effect.errorsOccurred touchedLayer.isSome ∨
                  e = Effect.warningsOccurred touchedLayer.isSome))) := by
  have hdocs : m.mMapDocument = none ∨ ∃ doc, m.mMapDocument = some doc := by
    cases m.mMapDocument with
    | none => exact Or.inl rfl
    | some doc => exact Or.inr ⟨doc, rfl⟩
  have hloadeds : m.mLoaded = true ∨ m.mLoaded = false := by
    cases m.mLoaded with
    | true => exact Or.inl rfl
    | false => exact Or.inr rfl
  have hsel : ∀ l : List AutoMapper,
      passedAutoMappers none l = l ∧
      (∀ layer, passedAutoMappers (some layer) l =
        l.filter fun a => a.ruleLayerNameUsed layer.name) ∧
      (passedAutoMappers touchedLayer l).Sublist l :=
    fun l => ⟨passedAutoMappers_none l, fun layer => rfl, List.filter_sublist l⟩
  rcases hdocs with hdoc | ⟨doc, hdoc⟩
  · refine ⟨_, autoMapInternal_of_no_doc env depth region touchedLayer m hdoc, hsel,
      fun _ => rfl, fun doc hd => absurd (hdoc.symm.trans hd) (by simp)⟩
  · rcases hloadeds with hl | hl
    · refine ⟨_, autoMapInternal_of_loaded env depth region touchedLayer m doc hdoc hl, hsel,
        fun hn => absurd (hdoc.symm.trans hn) (by simp), ?_⟩
      intro doc1 hd1
      obtain rfl : doc = doc1 := Option.some.inj (hdoc.symm.trans hd1)
      obtain ⟨⟨post, hpost, hsig⟩, hauto, hloaded⟩ := applyLoaded_effects env doc region
        touchedLayer { m with mError := [], mWarning := [] }
      refine ⟨fun _ => ⟨hauto, hloaded.trans hl, post, hpost, hsig⟩,
        fun hf => absurd (hl.symm.trans hf) (by simp),
        fun hf => absurd (hl.symm.trans hf) (by simp)⟩
    · by_cases hr : m.mRulesFile = []
      · refine ⟨_, autoMapInternal_of_no_rules env depth region touchedLayer m doc hdoc hl hr,
          hsel, fun hn => absurd (hdoc.symm.trans hn) (by simp), ?_⟩
        intro doc1 hd1
        exact ⟨fun ht => absurd (hl.symm.trans ht) (by simp),
          fun _ _ => ⟨rfl, hl, rfl⟩, fun _ hne => absurd hr hne⟩
      · obtain ⟨⟨ok, m2⟩, hload⟩ := loadFile_some env depth 0 m.mRulesFile
          { m with mError := [], mWarning := [] } (by omega)
        obtain ⟨_, hf, _, _⟩ := accounts_loadFile env depth 0 _ _ _ _ hload
        have hm2e : m2.effects = m.effects ++
            (loadErrors env (some doc) depth 0 m.mRulesFile).flatMap ErrorItem.logged := by
          rw [hf]
          simp only [hdoc]
        have hm2l : m2.mLoaded = false := by
          rw [loadFile_mLoaded env depth 0 _ _ _ _ hload]
          exact hl
        cases ok with
        | false =>
          refine ⟨_, autoMapInternal_of_load_false env depth region touchedLayer m doc hdoc hl
            hr m2 hload, hsel, fun hn => absurd (hdoc.symm.trans hn) (by simp), ?_⟩
          intro doc1 hd1
          obtain rfl : doc = doc1 := Option.some.inj (hdoc.symm.trans hd1)
          exact ⟨fun ht => absurd (hl.symm.trans ht) (by simp), fun _ he => absurd he hr,
            fun _ _ => ⟨false, m2, hload, hm2e, rfl, fun _ => ⟨hm2l, rfl⟩,
              fun ht => absurd ht (by simp)⟩⟩
        | true =>
          refine ⟨_, autoMapInternal_of_load_true env depth region touchedLayer m doc hdoc hl
            hr m2 hload, hsel, fun hn => absurd (hdoc.symm.trans hn) (by simp), ?_⟩
          intro doc1 hd1
          obtain rfl : doc = doc1 := Option.some.inj (hdoc.symm.trans hd1)
          obtain ⟨⟨post, hpost, hsig⟩, hauto, hloaded⟩ := applyLoaded_effects env doc region
            touchedLayer { m2 with mLoaded := true }
          exact ⟨fun ht => absurd (hl.symm.trans ht) (by simp), fun _ he => absurd he hr,
            fun _ _ => ⟨true, m2, hload, hm2e, hauto, fun hf => absurd hf (by simp),
              fun _ => ⟨hloaded, post, hpost, hsig⟩⟩⟩

/-- C11 on the sample file system.  The manager `sampleApplied` holds a
document, has its rules loaded and holds one automapper, which uses the layer
`ground`: `autoMapInternal` keeps the automapper and adds one undo macro for
it.  The manager `sampleUnloaded` has the rule map `/m/a.tmx` as its rules file
and nothing loaded: `autoMapInternal` loads it and adds one undo macro for the
automapper loaded.  With the touched layer `ground` the calls are the same, and
with the touched layer `sky` nothing is called. -/
theorem autoMapInternal_one_undo_group_witness :
    sampleEnv.maxOpenFiles + 1 ≤ 17 ∧
    sampleApplied.mAutoMappers.map AutoMapper.mRulesMapFileName = ["/m/a.tmx".toList] ∧
    passedAutoMappers none sampleApplied.mAutoMappers ≠ [] ∧
    (∃ m1,
      autoMapInternal sampleEnv 17 { rects := [] } none sampleApplied = some m1 ∧
      m1.mAutoMappers = sampleApplied.mAutoMappers ∧ m1.mLoaded = true ∧
      ∃ post,
        m1.effects = sampleApplied.effects ++
          (if passedAutoMappers none sampleApplied.mAutoMappers ≠ [] then
            macroCalls { addr := 1 } { rects := [] }
              (passedAutoMappers none sampleApplied.mAutoMappers)
          else []) ++ post ∧
        ∀ e ∈ post, e = Effect.errorsOccurred (none : Option TileLayer).isSome ∨
          e = Effect.warningsOccurred (none : Option TileLayer).isSome) ∧
    (autoMapInternal sampleEnv 17 { rects := [] } none sampleApplied).map
        (fun m1 => m1.effects) =
      some (sampleApplied.effects ++
        macroCalls { addr := 1 } { rects := [] } sampleApplied.mAutoMappers) ∧
    sampleUnloaded.mAutoMappers = [] ∧
    (autoMapInternal sampleEnv 17 { rects := [] } none sampleUnloaded).map
        (fun m1 => (m1.mAutoMappers, m1.effects)) =
      some (sampleApplied.mAutoMappers,
        macroCalls { addr := 1 } { rects := [] } sampleApplied.mAutoMappers) ∧
    (autoMapInternal sampleEnv 17 { rects := [] } (some { name := "ground".toList })
      sampleUnloaded).map (fun m1 => m1.effects) =
      some (macroCalls { addr := 1 } { rects := [] } sampleApplied.mAutoMappers) ∧
    (autoMapInternal sampleEnv 17 { rects := [] } (some { name := "sky".toList })
      sampleUnloaded).map (fun m1 => m1.effects) = some [] := by
  refine ⟨by decide, by decide, by decide, ?_, by decide, by decide, by decide, by decide,
    by decide⟩
  obtain ⟨m1, h, _, _, hdoc⟩ :=
    autoMapInternal_one_undo_group sampleEnv 17 { rects := [] } none sampleApplied (by decide)
  exact ⟨m1, h, (hdoc { addr := 1 } (by decide)).1 (by decide)⟩

/-! ## C12: the end of the recursive walk -/

end Tiled
